import Mathlib

/-!
Verification of the mpnum POVM measurement/sampling/estimation engine
(`src/mpnum/povm.py` and `src/mpnum/povm/mppovm.py`).

The numerical scalars of the Python code (complex floats) are embedded as
exact Gaussian rationals `QC` (a pair of rationals representing `re + im*i`).
Square roots of rationals (overall normalization factors of POVM vectors and
the square root in `prefactors = (snormsq/onormsq)**0.5`) are handled by
carrying squared scale factors, which is exact because every statement in the
claims only involves squares of those quantities.

The external tensor-train algebra (`mpnum.mparray`, `mpnum.factory`,
`mpnum.mpsmpo`) is not part of the analysed sources; per the specification
(section 6) it is an exact linear algebra collaborator.  Wherever it appears
it is modelled from the spec by the corresponding exact dense-tensor
operation (inner products, Kronecker/outer products, marginal sums).
-/

/-- Exact complex scalar with rational real and imaginary part (the exact
counterpart of the `complex` dtype used throughout `povm.py`). -/
@[ext]
structure QC where
  re : ℚ
  im : ℚ
deriving DecidableEq

namespace QC

instance : Zero QC := ⟨⟨0, 0⟩⟩

instance : One QC := ⟨⟨1, 0⟩⟩

instance : Add QC := ⟨fun x y => ⟨x.re + y.re, x.im + y.im⟩⟩

instance : Neg QC := ⟨fun x => ⟨-x.re, -x.im⟩⟩

instance : Mul QC := ⟨fun x y => ⟨x.re * y.re - x.im * y.im, x.re * y.im + x.im * y.re⟩⟩

instance : CommRing QC where
  add_assoc a b c := QC.ext (add_assoc a.re b.re c.re) (add_assoc a.im b.im c.im)
  add_comm a b := QC.ext (add_comm a.re b.re) (add_comm a.im b.im)
  zero_add a := QC.ext (zero_add a.re) (zero_add a.im)
  add_zero a := QC.ext (add_zero a.re) (add_zero a.im)
  neg_add_cancel a := QC.ext (neg_add_cancel a.re) (neg_add_cancel a.im)
  mul_assoc a b c := QC.ext
    (by
      show (a.re * b.re - a.im * b.im) * c.re - (a.re * b.im + a.im * b.re) * c.im =
        a.re * (b.re * c.re - b.im * c.im) - a.im * (b.re * c.im + b.im * c.re)
      ring)
    (by
      show (a.re * b.re - a.im * b.im) * c.im + (a.re * b.im + a.im * b.re) * c.re =
        a.re * (b.re * c.im + b.im * c.re) + a.im * (b.re * c.re - b.im * c.im)
      ring)
  mul_comm a b := QC.ext
    (by
      show a.re * b.re - a.im * b.im = b.re * a.re - b.im * a.im
      ring)
    (by
      show a.re * b.im + a.im * b.re = b.re * a.im + b.im * a.re
      ring)
  one_mul a := QC.ext
    (by
      show 1 * a.re - 0 * a.im = a.re
      ring)
    (by
      show 1 * a.im + 0 * a.re = a.im
      ring)
  mul_one a := QC.ext
    (by
      show a.re * 1 - a.im * 0 = a.re
      ring)
    (by
      show a.re * 0 + a.im * 1 = a.im
      ring)
  left_distrib a b c := QC.ext
    (by
      show a.re * (b.re + c.re) - a.im * (b.im + c.im) =
        (a.re * b.re - a.im * b.im) + (a.re * c.re - a.im * c.im)
      ring)
    (by
      show a.re * (b.im + c.im) + a.im * (b.re + c.re) =
        (a.re * b.im + a.im * b.re) + (a.re * c.im + a.im * c.re)
      ring)
  right_distrib a b c := QC.ext
    (by
      show (a.re + b.re) * c.re - (a.im + b.im) * c.im =
        (a.re * c.re - a.im * c.im) + (b.re * c.re - b.im * c.im)
      ring)
    (by
      show (a.re + b.re) * c.im + (a.im + b.im) * c.re =
        (a.re * c.im + a.im * c.re) + (b.re * c.im + b.im * c.re)
      ring)
  zero_mul a := QC.ext
    (by
      show 0 * a.re - 0 * a.im = 0
      ring)
    (by
      show 0 * a.im + 0 * a.re = 0
      ring)
  mul_zero a := QC.ext
    (by
      show a.re * 0 - a.im * 0 = 0
      ring)
    (by
      show a.re * 0 + a.im * 0 = 0
      ring)
  nsmul := nsmulRec
  zsmul := zsmulRec
  natCast n := ⟨n, 0⟩
  natCast_zero := QC.ext (by show ((0 : ℕ) : ℚ) = 0; norm_num) rfl
  natCast_succ n := QC.ext
    (by
      show ((n + 1 : ℕ) : ℚ) = (n : ℚ) + 1
      push_cast
      ring)
    (by
      show (0 : ℚ) = 0 + 0
      norm_num)

/-- Complex conjugation (`.conj()` in numpy). -/
def conj (z : QC) : QC := ⟨z.re, -z.im⟩

/-- Embedding of the rationals (real scalars of the code). -/
def ofQ (q : ℚ) : QC := ⟨q, 0⟩

/-- Squared absolute value `abs(z)**2` of a complex scalar, as a rational. -/
def absSq (z : QC) : ℚ := z.re ^ 2 + z.im ^ 2

end QC

/-! ## Local POVMs (`src/mpnum/povm.py`)

A local POVM element on a `d`-dimensional space is a `d × d` complex matrix
(the code stores it reshaped to length `d**2`; we keep the two indices).
Rank-1 vectors carry an overall normalization `1/sqrt(2*(d-1))` (X and Y)
which is irrational; a vector is therefore represented as a pair
`(sqScale, raw)` meaning `sqrt(sqScale) * raw`, with `sqScale : ℚ`.
The self-outer-product of such a vector is exactly
`sqScale * raw[a] * conj (raw[b])`, which is rational-complex again. -/

/-- A matrix over the exact complex scalars; entries with indices outside the
intended dimension are `0` for all matrices built below. -/
abbrev Mat := ℕ → ℕ → QC

/-- A vector with a separately carried squared normalization factor:
the pair `(s, v)` denotes the vector `sqrt s * v`. -/
abbrev SVec := ℚ × (ℕ → QC)

namespace LocalPovm

open QC

/-- `Base._init_elements_from_vectors`: the element of a rank-1 vector is
`np.outer(vec, vec.conj()).reshape(d**2)`; for a scaled vector `(s, v)` this
is the matrix `s * v[a] * conj (v[b])`. -/
def elemOfVec (sv : SVec) : Mat := fun a b => ofQ sv.1 * (sv.2 a * conj (sv.2 b))

/-- The index pairs `(i, j)` with `i < j < d` produced by the nested loops
`for i in range(d-1): for j in range(i+1, d)` of `X.__init__`/`Y.__init__`,
in loop order. -/
def loopPairs (d : ℕ) : List (ℕ × ℕ) :=
  (List.range (d - 1)).flatMap fun i =>
    (List.range (d - 1 - i)).map fun t => (i, i + 1 + t)

/-- First vector of an X pair: entries `1` at positions `i` and `j`. -/
def vplusX (i j : ℕ) : ℕ → QC := fun a => if a = i then 1 else if a = j then 1 else 0

/-- Second vector of an X pair: entry `1` at `i` and `-1` at `j`. -/
def vminusX (i j : ℕ) : ℕ → QC := fun a => if a = i then 1 else if a = j then -1 else 0

/-- First vector of a Y pair: entry `1` at `i` and `1j` at `j`. -/
def vplusY (i j : ℕ) : ℕ → QC := fun a => if a = i then 1 else if a = j then ⟨0, 1⟩ else 0

/-- Second vector of a Y pair: entry `1` at `i` and `-1j` at `j`. -/
def vminusY (i j : ℕ) : ℕ → QC := fun a => if a = i then 1 else if a = j then ⟨0, -1⟩ else 0

/-- `X.__init__`: the `d*(d-1)` vectors, each normalized by
`1/np.sqrt(2*(d-1))`, i.e. squared scale `1/(2*(d-1))`. -/
def xVectors (d : ℕ) : List SVec :=
  (loopPairs d).flatMap fun p =>
    [(1 / (2 * ((d : ℚ) - 1)), vplusX p.1 p.2), (1 / (2 * ((d : ℚ) - 1)), vminusX p.1 p.2)]

/-- `Y.__init__`: as `X` but with `±1j` at position `j`. -/
def yVectors (d : ℕ) : List SVec :=
  (loopPairs d).flatMap fun p =>
    [(1 / (2 * ((d : ℚ) - 1)), vplusY p.1 p.2), (1 / (2 * ((d : ℚ) - 1)), vminusY p.1 p.2)]

/-- `Z.__init__`: the `d` standard basis vectors, unnormalized. -/
def zVectors (d : ℕ) : List SVec :=
  (List.range d).map fun i => ((1 : ℚ), fun a => if a = i then 1 else 0)

/-- Elements of the X POVM (`_init_elements_from_vectors`). -/
def xElements (d : ℕ) : List Mat := (xVectors d).map elemOfVec

/-- Elements of the Y POVM (`_init_elements_from_vectors`). -/
def yElements (d : ℕ) : List Mat := (yVectors d).map elemOfVec

/-- Elements of the Z POVM (`_init_elements_from_vectors`). -/
def zElements (d : ℕ) : List Mat := (zVectors d).map elemOfVec

/-- Entrywise scaling of a matrix by a rational weight
(numpy `povm.elements * weight`). -/
def scaleMat (w : ℚ) (E : Mat) : Mat := fun a b => ofQ w * E a b

/-- `Combined._init_combined`, vectors part: `povm.vectors * weight`
concatenated over the parts.  Scaling the vector `sqrt s * v` by `w` gives
`sqrt (w^2 * s) * v`. -/
def combinedVectors (parts : List (List SVec × List Mat × ℚ)) : List SVec :=
  parts.flatMap fun part => part.1.map fun sv => (part.2.2 ^ 2 * sv.1, sv.2)

/-- `Combined._init_combined`, elements part: `povm.elements * weight`
concatenated over the parts. -/
def combinedElements (parts : List (List SVec × List Mat × ℚ)) : List Mat :=
  parts.flatMap fun part => part.2.1.map (scaleMat part.2.2)

/-- The constituent POVMs and weights chosen by `PauliGen.__init__`:
X, Y, Z with weight `1/3` each for `d = 2`; X, Y with weight `1/2` each
otherwise. -/
def pauliParts (d : ℕ) : List (List SVec × List Mat × ℚ) :=
  if d = 2 then
    [(xVectors d, xElements d, 1/3), (yVectors d, yElements d, 1/3),
     (zVectors d, zElements d, 1/3)]
  else
    [(xVectors d, xElements d, 1/2), (yVectors d, yElements d, 1/2)]

/-- The per-part weight of `PauliGen`. -/
def pauliWeight (d : ℕ) : ℚ := if d = 2 then 1/3 else 1/2

/-- `PauliGen` vectors. -/
def pauliGenVectors (d : ℕ) : List SVec := combinedVectors (pauliParts d)

/-- `PauliGen` elements. -/
def pauliGenElements (d : ℕ) : List Mat := combinedElements (pauliParts d)

/-- The sum of a list of POVM elements, entrywise. -/
def sumElems (l : List Mat) : Mat := fun a b => (l.map fun E => E a b).sum

/-- The `d`-dimensional identity matrix (as an everywhere-defined `Mat`). -/
def idMat (d : ℕ) : Mat := fun a b => if a = b ∧ a < d then 1 else 0

end LocalPovm

/-! Generic list-summation helpers used to evaluate the nested `for` loops of
`povm.py` as finite sums. -/

namespace LocalPovm

open QC

/-- The rational-complex indicator `1` if `a = k`, used to express the
basis-vector entries of `povm.py`. -/
def indQ (a k : ℕ) : QC := if a = k then 1 else 0

end LocalPovm

/-! ## Cross-POVM element matching (`MPPovm.find_matching_elements`,
`src/mpnum/povm/mppovm.py` lines 258-346)

The multi-site structure is flattened: a POVM element is a `D × D` matrix
where `D` is the product of the local Hilbert dimensions, and an outcome is
one flat index below `K`, the product of the non-singleton outcome
dimensions.  The tensor-train inner products `mp.dot(self.conj(), other,
axes=((1, 2), (1, 2)))` of the external algebra (spec section 6) are exactly
the dense matrix inner products modelled here.  At sites where `self` has a
singleton outcome dimension the code collapses `other`'s outcome legs with
all-ones projectors; after flattening this reduction is absorbed into the
element family handed to the model (for `other = self`, and whenever both
POVMs measure the same sites, it is the identity because `ones((1, 1))` acts
as a scalar `1`). -/

namespace MPP

open QC

/-- Dense matrix inner product `<A, B> = sum conj(A[a,b]) * B[a,b]` over a
`D`-dimensional space (the value of the tensor-train inner products used in
`find_matching_elements`). -/
def minner (D : ℕ) (A B : Mat) : QC :=
  ∑ a ∈ Finset.range D, ∑ b ∈ Finset.range D, conj (A a b) * B a b

/-- `snormsq` / `onormsq`: the squared norm of an element, taken as a real
number (`.real` in the code). -/
def normSqR (D : ℕ) (A : Mat) : ℚ := (minner D A A).re

/-- Line 327: `match = abs(inner/normprod - 1) <= eps`, where `inner` is the
squared modulus `abs(<a,b>)**2` and `normprod` the product of the squared
norms: equality in the Cauchy-Schwarz inequality within `eps`. -/
def matchB (eps : ℚ) (D : ℕ) (A B : Mat) : Bool :=
  decide (|QC.absSq (minner D A B) / (normSqR D A * normSqR D B) - 1| ≤ eps)

/-- Line 342: `prefactors = (snormsq / onormsq)**0.5`.  The square root of a
rational is irrational in general, so the model carries the square
`prefactorSq = snormsq / onormsq`; every claim about the prefactors is stated
in terms of this square (both quantities are nonnegative, so this loses
nothing). -/
def prefactorSq (D : ℕ) (A B : Mat) : ℚ := normSqR D A / normSqR D B

/-- Line 324, the fatal Cauchy-Schwarz consistency assert:
`(normprod - inner)/normprod >= -eps` with the squared quantities. -/
def csOk (eps : ℚ) (D : ℕ) (A B : Mat) : Bool :=
  decide (-eps ≤ (normSqR D A * normSqR D B - QC.absSq (minner D A B)) /
    (normSqR D A * normSqR D B))

/-- The Python exception kinds arising in the modelled code paths. -/
inductive PyErr where
  | valueError
  | nameError
  | assertionError
  | attributeError
  | indexError
deriving DecidableEq

/-- A multi-site POVM in flattened dense form: `D` is the product of the
local Hilbert space dimensions, `K` the product of the non-singleton outcome
dimensions (`np.prod(self.nsoutdims)`), and `elem i` the dense matrix of the
POVM element with flat outcome index `i` (`i < K`). -/
structure Fam where
  D : ℕ
  K : ℕ
  elem : ℕ → Mat

/-- The match tensor entry of `find_matching_elements` for elements `i` of
`self` and `j` of (the reduced) `other`. -/
def matchF (eps : ℚ) (P Q : Fam) (i j : ℕ) : Bool :=
  matchB eps P.D (P.elem i) (Q.elem j)

/-- Line 319/320: `assert (snormsq > 0).all()`. -/
def normsOk (P : Fam) : Bool :=
  decide (∀ i < P.K, 0 < normSqR P.D (P.elem i))

/-- Line 324: the Cauchy-Schwarz consistency assert over all element pairs. -/
def csAllOk (eps : ℚ) (P Q : Fam) : Bool :=
  decide (∀ i < P.K, ∀ j < Q.K, csOk eps P.D (P.elem i) (Q.elem j) = true)

/-- `MPPovm.find_matching_elements(other, exclude_dup, eps)`, lines 258-346,
on the flattened families.  Control flow in source order: the Hilbert space
compatibility check (`ValueError`); then line 288 `assert
{'self','other'}.issuperset(exclude_duplicates)` which references the
undefined name `exclude_duplicates` (the parameter is called `exclude_dup`),
so any call with a non-empty `exclude_dup` raises `NameError` before any
duplicate check runs; then the positivity and Cauchy-Schwarz asserts; then
the match tensor and (squared) prefactors are returned.  The duplicate
checks of lines 331-336 are unreachable because they sit behind the
`NameError`. -/
def find_matching_elements (eps : ℚ) (excludeDup : List String) (P Q : Fam) :
    Except PyErr ((ℕ → ℕ → Bool) × (ℕ → ℕ → ℚ)) :=
  if P.D ≠ Q.D then .error .valueError
  else if 0 < excludeDup.length then .error .nameError
  else if ¬ (normsOk P && normsOk Q) then .error .assertionError
  else if ¬ csAllOk eps P Q then .error .assertionError
  else .ok (matchF eps P Q, fun i j => prefactorSq P.D (P.elem i) (Q.elem j))

/-- `MPPovm.count_samples` (lines 708-726): the number of occurrences of the
flat outcome `o` in `samples` (`counts[out] = (samples == out).all(1).sum()`,
with outcomes flattened). -/
def count_samples (samples : List ℕ) (o : ℕ) : ℕ :=
  samples.countP fun s => s == o

/-- Line 684 `given = match.any(...)`: whether any element of `other` matches
the element `o` of `self`. -/
def givenF (eps : ℚ) (P Q : Fam) (o : ℕ) : Bool :=
  (List.range Q.K).any fun j => matchF eps P Q o j

/-- `mp.dot(given, self)` of `_elemsum_identity`: the sum of the selected
POVM elements. -/
def elemSumF (P : Fam) (g : ℕ → Bool) : Mat := fun a b =>
  ∑ o ∈ Finset.range P.K, if g o then P.elem o a b else 0

/-- Line 638 of `_elemsum_identity`, the fatal Cauchy-Schwarz validity
assert `(norm_prod - inner)/norm_prod >= -eps`, i.e.
`inner <= (1+eps) * norm_prod` with `inner = abs(mp.inner(elem_sum, eye))`
and `norm_prod = ||elem_sum|| * ||eye||`; squaring both (nonnegative) sides
gives the rational test below. -/
def eyeCsValid (eps : ℚ) (P : Fam) (g : ℕ → Bool) : Bool :=
  decide (QC.absSq (minner P.D (elemSumF P g) (LocalPovm.idMat P.D)) ≤
    (1 + eps) ^ 2 *
      (normSqR P.D (elemSumF P g) * normSqR P.D (LocalPovm.idMat P.D)))

/-- Lines 639-640 of `_elemsum_identity`: the code returns a prefactor (not
`None`) iff `(norm_prod - inner)/norm_prod <= eps`, i.e.
`inner >= (1-eps) * norm_prod`; squaring both sides (guarding the case
`1 - eps < 0`, where the inequality is trivially true) gives the rational
test below. -/
def eyeTest (eps : ℚ) (P : Fam) (g : ℕ → Bool) : Bool :=
  decide (1 - eps ≤ 0 ∨
    (normSqR P.D (elemSumF P g) * normSqR P.D (LocalPovm.idMat P.D)) *
        (1 - eps) ^ 2 ≤
      QC.absSq (minner P.D (elemSumF P g) (LocalPovm.idMat P.D)))

/-- `any_missing = not given.all()` of `_elemsum_identity` (line 630). -/
def anyMissing (P : Fam) (g : ℕ → Bool) : Bool :=
  ! (List.range P.K).all g

/-- Lines 641-646 of `_elemsum_identity`: after computing
`all_prefactor = sum_norm / eye_norm`, the code asserts
`all_prefactor < 1.0 + eps` when elements are missing and
`abs(all_prefactor - 1.0) <= eps` otherwise.  `apf` is the value of
`all_prefactor` (the model carries square roots of rational norm ratios as
separate rational parameters, constrained in the theorems; see `pf` in
`counts_from`). -/
def apfOk (eps : ℚ) (P : Fam) (g : ℕ → Bool) (apf : ℚ) : Bool :=
  if anyMissing P g then decide (apf < 1 + eps) else decide (|apf - 1| ≤ eps)

/-- `counts.sum()` as it stands at line 704 of `counts_from` (before the
NaN assignment of line 705): every entry of the zero-initialized counts
array holds the accumulated matched contributions
`prefactors * count / n_samples`, and unmatched entries are still `0.0`. -/
def countsSum (eps : ℚ) (P Q : Fam) (pf : ℕ → ℕ → ℚ) (samples : List ℕ) : ℚ :=
  ∑ o ∈ Finset.range P.K, ∑ j ∈ Finset.range Q.K,
    if matchF eps P Q o j then
      pf o j * (count_samples samples j : ℚ) / samples.length
    else 0

/-- `MPPovm.counts_from(other, samples, eps)` (lines 649-706) on the
flattened families.  `pf` is the prefactor tensor computed by
`find_matching_elements` and `apf` the value of `_elemsum_identity`'s
`all_prefactor = sum_norm / eye_norm` (the model carries their squares in
`prefactorSq` and in the `eyeCsValid`/`eyeTest` ratios; `pf` and `apf` are
the nonnegative square roots, rational in every case a claim needs, and the
theorems constrain them against the squared quantities).  Control flow in
source order: if no element of `self` is matched, return an all-NaN array
(modelled as `none`) and `0` samples used (lines 684-688); then
`_elemsum_identity` runs: its Cauchy-Schwarz validity assert (line 638), a
`None` result (failing the `assert all_prefactor is not None` of line 690)
when the equality test fails (lines 639-640), and the prefactor bound
asserts (lines 643-646); then the counts are accumulated
(`counts[my_out] += prefactors * count / n_samples`, lines 699-702), the
line 704 assert `abs(counts.sum() - all_prefactor) <= eps` runs, unmatched
entries become NaN (line 705), and `(counts, n_samples_used)` is returned
with `n_samples_used` the number of sample rows matched by at least one
element of `self` (lines 695-697). -/
def counts_from (eps : ℚ) (P Q : Fam) (pf : ℕ → ℕ → ℚ) (apf : ℚ)
    (samples : List ℕ) : Except PyErr ((ℕ → Option ℚ) × ℕ) :=
  if ¬ ((List.range P.K).any fun o => givenF eps P Q o) then
    .ok (fun _ => none, 0)
  else if ¬ eyeCsValid eps P (givenF eps P Q) then .error .assertionError
  else if ¬ eyeTest eps P (givenF eps P Q) then .error .assertionError
  else if ¬ apfOk eps P (givenF eps P Q) apf then .error .assertionError
  else if ¬ (|countsSum eps P Q pf samples - apf| ≤ eps) then
    .error .assertionError
  else
    .ok (fun o =>
      if o < P.K ∧ givenF eps P Q o = true then
        some (∑ j ∈ Finset.range Q.K,
          if matchF eps P Q o j then
            pf o j * (count_samples samples j : ℚ) / samples.length else 0)
      else none,
      samples.countP fun s => (List.range P.K).any fun o => matchF eps P Q o s)

/-- Projection of the counts array entry `o` out of a `counts_from` result. -/
def countsEntry (r : Except PyErr ((ℕ → Option ℚ) × ℕ)) (o : ℕ) : Option ℚ :=
  match r with
  | .ok fc => fc.1 o
  | .error _ => none

/-- The single-site Z POVM for `d = 2` in flattened form: two elements
`E00` and `E11` on a 2-dimensional space
(`MPPovm.from_local_povm(z_povm(2), 1)`). -/
def zFam : Fam :=
  ⟨2, 2, fun i => fun a b => if a = b ∧ a = i ∧ a < 2 then 1 else 0⟩

/-- The doubled Z family `{2*E00, 2*E11}` on a 2-dimensional space: pairwise
non-proportional elements whose sum is `2 * eye`, so `_elemsum_identity`
computes `all_prefactor = sum_norm / eye_norm = 2` and the line 646 assert
fails. -/
def z2Fam : Fam :=
  ⟨2, 2, fun i => fun a b => if a = b ∧ a = i ∧ a < 2 then ⟨2, 0⟩ else 0⟩

/-! ## Conditional sampling (`_sample_cond` / `_sample_cond_single`,
`src/mpnum/povm/mppovm.py` lines 348-392)

The pruned probability tensor is a dense rational tensor `p` over the
non-singleton outcomes, given as a function of the full outcome list;
`dims` are the outcome dimensions.  `marginal_p[k]` of `_sample_cond` is the
sum of `p` over the trailing outcome legs, computed here by `margD` (the code
sums one trailing leg at a time; by associativity of addition this is the
same sum).  The random generator only ever returns outcomes with a nonzero
conditional probability (spec section 6, "categorical
draw-by-probability-vector"), which appears below as the positivity
hypotheses on the marginals of the drawn prefixes. -/

/-- The marginal probability of the partial outcome `pre`, summing `p` over
the remaining outcome dimensions `ds`. -/
def margD : List ℕ → (List ℕ → ℚ) → List ℕ → ℚ
  | [], p, pre => p pre
  | dd :: ds, p, pre => ∑ j ∈ Finset.range dd, margD ds p (pre ++ [j])

/-- The running probability `out_p` of `_sample_cond_single` after
processing the drawn groups `gs`, starting from the already drawn outcomes
`pre` with running probability `out_p`.  Per group the code slices the
marginal at the drawn outcomes, divides by `out_p` (`p = ... / out_p`),
clips negative entries to zero (`p[p < 0] = 0.0`), and multiplies the drawn
entry back into `out_p` (`out_p *= np.prod(p.flat[choice])`). -/
def runCond (dims : List ℕ) (p : List ℕ → ℚ) :
    List (List ℕ) → List ℕ → ℚ → ℚ
  | [], _, out_p => out_p
  | g :: gs, pre, out_p =>
      runCond dims p gs (pre ++ g)
        (out_p *
          (if margD (dims.drop (pre.length + g.length)) p (pre ++ g) / out_p < 0
           then 0
           else margD (dims.drop (pre.length + g.length)) p (pre ++ g) / out_p))

end MPP

/-! ## Tensor-train structure of an MPPovm (`mp.MPArray` with 3 physical
legs; structural operations of `src/mpnum/povm/mppovm.py` lines 107-200)

An `MPPovm` is a chain of per-site tensors with a left bond leg, three
physical legs (outcome, row, column — the constructor of `MPPovm` asserts 3
physical legs and equal row/column dimensions, which the single `hd` field
encodes), and a right bond leg; boundary bonds have dimension 1.  `mp.outer`
of the external algebra concatenates the per-site tensor lists.  `eval`
contracts a chain to the dense tensor it represents (the semantics the
external algebra assigns to an MPArray, spec section 6). -/

namespace TT

open QC

/-- One site of an MPPovm: left bond dimension, outcome dimension, local
Hilbert space dimension (row = column), right bond dimension, and the local
tensor indexed as `t[left bond, outcome, row, column, right bond]`. -/
structure Site where
  bl : ℕ
  out : ℕ
  hd : ℕ
  br : ℕ
  t : ℕ → ℕ → ℕ → ℕ → ℕ → QC

/-- The bond dimension at the left edge of a chain (1 for the empty chain:
the boundary bond). -/
def leftBond : List Site → ℕ
  | [] => 1
  | s :: _ => s.bl

/-- Adjacent bond dimensions match and the rightmost bond has dimension 1. -/
def chainOk : List Site → Bool
  | [] => true
  | s :: rest => (s.br == leftBond rest) && chainOk rest

/-- A well-formed MPArray chain: boundary bonds 1 and matching inner bonds. -/
def wf (c : List Site) : Prop := leftBond c = 1 ∧ chainOk c = true

/-- Dense evaluation of a chain: contract the bond legs, leaving one
`(outcome, row, column)` index triple per site.  `eval l c idx` is the
partial contraction with the left bond fixed to `l`. -/
def eval : ℕ → List Site → List (ℕ × ℕ × ℕ) → QC
  | l, [], _ => if l = 0 then 1 else 0
  | _, _ :: _, [] => 0
  | l, s :: rest, idx :: idxs =>
      ∑ b ∈ Finset.range s.br, s.t l idx.1 idx.2.1 idx.2.2 b * eval b rest idxs

/-- `MPPovm.eye(local_dims)` (lines 119-130): per site
`np.eye(dim).reshape(1, dim, dim)` as a bond-dimension-1 tensor with a
singleton outcome leg. -/
def eyeSites (local_dims : List ℕ) : List Site :=
  local_dims.map fun dim =>
    ⟨1, 1, dim, 1, fun l o r c b =>
      if l = 0 ∧ o = 0 ∧ r = c ∧ r < dim ∧ b = 0 then 1 else 0⟩

/-- `MPPovm.embed(nr_sites, startsite, local_dim)` (lines 132-152):
`MPPovm(mp.outer([eye(startsite sites), self, eye(remaining sites)]))`;
`mp.outer` concatenates the per-site tensor lists. -/
def embed (nr_sites startsite local_dim : ℕ) (P : List Site) : List Site :=
  eyeSites (List.replicate startsite local_dim) ++ P ++
    eyeSites (List.replicate (nr_sites - P.length - startsite) local_dim)

/-- `self.hdims[0]`, used by `block` as the filler dimension. -/
def localDim : List Site → ℕ
  | [] => 0
  | s :: _ => s.hd

/-- `MPPovm.block(nr_sites)` (lines 154-173): `self` embedded at
`startsite = 0, ..., nr_sites - len(self)`. -/
def block (nr_sites : ℕ) (P : List Site) : List (List Site) :=
  (List.range (nr_sites - P.length + 1)).map fun startsite =>
    embed nr_sites startsite (localDim P) P

/-- `MPPovm.repeat(nr_sites)` (lines 175-200):
`mp.outer([self] * n_repeat + ([self[:n_last]] if n_last > 0 else []))` with
`n_repeat = nr_sites // len(self)` and `n_last = nr_sites % len(self)`.
The partial-repetition assert (`self.bdims[n_last - 1] == 1` for
`n_last > 0`) is outside the claim, which only uses whole multiples where
`n_last = 0`. -/
def repeatChain (nr_sites : ℕ) (P : List Site) : List Site :=
  (List.replicate (nr_sites / P.length) P).flatten ++
    P.take (nr_sites % P.length)

/-- A single-site MPPovm chain: the flattened Z POVM site for `d = 2`
(`MPPovm.from_local_povm(z_povm(2), 1)`). -/
def zSiteTT : Site :=
  ⟨1, 2, 2, 1, fun l o r c b =>
    if l = 0 ∧ b = 0 ∧ r = c ∧ r = o ∧ r < 2 then 1 else 0⟩

end TT

namespace MPP

open QC

/-- `MPPovmList.estprob_from(other, samples)` (lines 868-884).  The
generator body asserts `len(self.mpps[0]) == len(other.mpps[0])` and then,
for each member, calls `mpp.estprob_from_mpps(other, samples, eps)`.
`MPPovm` defines no attribute `estprob_from_mpps` — the per-member
estimator defined at line 728 is named `estprob_from_mpplist` — and the
external `mp.MPArray` base class provides no estimation methods (the spec's
section 6 interface of the tensor-train algebra has none), so the first
iteration raises `AttributeError`.  Members are modelled by their site
counts (all that the executed code ever reads); no result value is ever
produced. -/
def estprob_from (selfLens otherLens : List ℕ) : Except PyErr (List Unit) :=
  match selfLens, otherLens with
  | [], _ => .error .indexError
  | _ :: _, [] => .error .indexError
  | s0 :: _, o0 :: _ =>
      if s0 ≠ o0 then .error .assertionError
      else .error .attributeError

/-- `MPPovm.expectations(mpa, mode)` (lines 202-238): resolution of
`mode='auto'` from the per-site physical leg counts of the state
(`1 → 'mps'`, `2 → 'mpdo'`, anything else leaves `'auto'`, which falls
through to the `ValueError` branch). -/
def resolveMode (mode : String) (plegs : List ℕ) : String :=
  if mode = "auto" then
    if plegs.all fun pleg => pleg == 1 then "mps"
    else if plegs.all fun pleg => pleg == 2 then "mpdo"
    else "auto"
  else mode

/-- The dispatch of `expectations`: which reduction path runs.  The
per-branch computations (reduction collaborator plus contraction with
`probability_map`) are abstracted as opaque values of the result type `τ`;
the claim is about which of the three paths is taken. -/
def expectationsDispatch (τ : Type) (mpsVal mpdoVal pmpsVal : τ)
    (mode : String) (plegs : List ℕ) : Except PyErr τ :=
  if resolveMode mode plegs = "mps" then .ok mpsVal
  else if resolveMode mode plegs = "mpdo" then .ok mpdoVal
  else if resolveMode mode plegs = "pmps" then .ok pmpsVal
  else .error .valueError

end MPP

namespace QC

@[simp] theorem zero_re : (0 : QC).re = 0 := rfl

@[simp] theorem zero_im : (0 : QC).im = 0 := rfl

@[simp] theorem one_re : (1 : QC).re = 1 := rfl

@[simp] theorem one_im : (1 : QC).im = 0 := rfl

@[simp] theorem add_re (x y : QC) : (x + y).re = x.re + y.re := rfl

@[simp] theorem add_im (x y : QC) : (x + y).im = x.im + y.im := rfl

@[simp] theorem neg_re (x : QC) : (-x).re = -x.re := rfl

@[simp] theorem neg_im (x : QC) : (-x).im = -x.im := rfl

@[simp] theorem mul_re (x y : QC) : (x * y).re = x.re * y.re - x.im * y.im := rfl

@[simp] theorem mul_im (x y : QC) : (x * y).im = x.re * y.im + x.im * y.re := rfl

@[simp] theorem conj_re (z : QC) : (conj z).re = z.re := rfl

@[simp] theorem conj_im (z : QC) : (conj z).im = -z.im := rfl

@[simp] theorem ofQ_re (q : ℚ) : (ofQ q).re = q := rfl

@[simp] theorem ofQ_im (q : ℚ) : (ofQ q).im = 0 := rfl

@[simp] theorem ofQ_zero : ofQ 0 = 0 := rfl

@[simp] theorem ofQ_one : ofQ 1 = 1 := rfl

theorem ofQ_add (a b : ℚ) : ofQ (a + b) = ofQ a + ofQ b := by ext <;> simp

theorem ofQ_mul (a b : ℚ) : ofQ (a * b) = ofQ a * ofQ b := by ext <;> simp

@[simp] theorem natCast_re (n : ℕ) : ((n : ℕ) : QC).re = n := rfl

@[simp] theorem natCast_im (n : ℕ) : ((n : ℕ) : QC).im = 0 := rfl

end QC

theorem list_sum_map_range {M : Type} [AddCommMonoid M] (f : ℕ → M) (n : ℕ) :
    ((List.range n).map f).sum = ∑ i ∈ Finset.range n, f i := by
  induction n with
  | zero => simp
  | succ n ih => simp [List.range_succ, Finset.sum_range_succ, ih]

theorem list_sum_map_flatMap {α β M : Type} [AddCommMonoid M]
    (l : List α) (g : α → List β) (f : β → M) :
    (((l.flatMap g)).map f).sum = (l.map fun x => ((g x).map f).sum).sum := by
  induction l with
  | nil => simp
  | cons a l ih => simp [ih]

theorem list_sum_map_mul_left {α : Type} (l : List α) (r : QC) (f : α → QC) :
    (l.map fun x => r * f x).sum = r * (l.map f).sum := by
  induction l with
  | nil => simp
  | cons a l ih => simp [ih, mul_add]

namespace LocalPovm

open QC

theorem conj_indQ (a k : ℕ) : conj (indQ a k) = indQ a k := by
  unfold indQ; split <;> ext <;> simp

theorem conj_add (x y : QC) : conj (x + y) = conj x + conj y := by ext <;> simp <;> ring

theorem conj_sub (x y : QC) : conj (x - y) = conj x - conj y := by
  ext <;> simp [sub_eq_add_neg] <;> ring

theorem conj_mul (x y : QC) : conj (x * y) = conj x * conj y := by ext <;> simp <;> ring

theorem indQ_mul_indQ (a b k : ℕ) :
    indQ a k * indQ b k = if a = k ∧ b = k then 1 else 0 := by
  unfold indQ
  by_cases ha : a = k <;> by_cases hb : b = k <;> simp [ha, hb]

theorem vplusX_eq {i j : ℕ} (hij : i ≠ j) (a : ℕ) :
    vplusX i j a = indQ a i + indQ a j := by
  unfold vplusX indQ
  by_cases ha : a = i
  · subst ha; simp [hij]
  · by_cases hb : a = j
    · subst hb; simp [ha]
    · simp [ha, hb]

theorem vminusX_eq {i j : ℕ} (hij : i ≠ j) (a : ℕ) :
    vminusX i j a = indQ a i - indQ a j := by
  unfold vminusX indQ
  by_cases ha : a = i
  · subst ha; simp [hij]
  · by_cases hb : a = j
    · subst hb; simp [ha]
    · simp [ha, hb]

theorem vplusY_eq {i j : ℕ} (hij : i ≠ j) (a : ℕ) :
    vplusY i j a = indQ a i + ⟨0, 1⟩ * indQ a j := by
  unfold vplusY indQ
  by_cases ha : a = i
  · subst ha; simp [hij]
  · by_cases hb : a = j
    · subst hb; simp [ha]
    · simp [ha, hb]

theorem vminusY_eq {i j : ℕ} (hij : i ≠ j) (a : ℕ) :
    vminusY i j a = indQ a i - ⟨0, 1⟩ * indQ a j := by
  unfold vminusY indQ
  by_cases ha : a = i
  · subst ha; simp [hij]
  · by_cases hb : a = j
    · subst hb; simp [ha]; ext <;> simp
    · simp [ha, hb]

/-- Contribution of one `(i, j)` loop iteration of `X.__init__` to the element
sum: the two vectors of the pair contribute `2s` on the diagonal entries `i`
and `j`. -/
theorem xPairSum (s : ℚ) {i j : ℕ} (hij : i ≠ j) (a b : ℕ) :
    elemOfVec (s, vplusX i j) a b + elemOfVec (s, vminusX i j) a b =
      ofQ (2 * s) *
        ((if a = i ∧ b = i then 1 else 0) + (if a = j ∧ b = j then 1 else 0)) := by
  unfold elemOfVec
  simp only [vplusX_eq hij, vminusX_eq hij, conj_add, conj_sub, conj_indQ]
  rw [← indQ_mul_indQ a b i, ← indQ_mul_indQ a b j]
  have h2 : ofQ (2 * s) = ofQ s + ofQ s := by ext <;> simp <;> ring
  rw [h2]
  ring

/-- Contribution of one `(i, j)` loop iteration of `Y.__init__`; identical to
the X case because `1j * conj 1j = 1`. -/
theorem yPairSum (s : ℚ) {i j : ℕ} (hij : i ≠ j) (a b : ℕ) :
    elemOfVec (s, vplusY i j) a b + elemOfVec (s, vminusY i j) a b =
      ofQ (2 * s) *
        ((if a = i ∧ b = i then 1 else 0) + (if a = j ∧ b = j then 1 else 0)) := by
  unfold elemOfVec
  simp only [vplusY_eq hij, vminusY_eq hij, conj_add, conj_sub, conj_mul, conj_indQ]
  rw [← indQ_mul_indQ a b i, ← indQ_mul_indQ a b j]
  have h2 : ofQ (2 * s) = ofQ s + ofQ s := by ext <;> simp <;> ring
  have hc : conj ⟨0, 1⟩ = ⟨0, -1⟩ := by ext <;> simp
  have hxx : (⟨0, 1⟩ : QC) * ⟨0, -1⟩ = 1 := by ext <;> simp
  rw [h2, hc]
  linear_combination (2 * ofQ s * indQ a j * indQ b j) * hxx

theorem ite_and_split (a b k : ℕ) :
    (if a = k ∧ b = k then (1 : QC) else 0) =
      if a = k then (if b = a then 1 else 0) else 0 := by
  by_cases ha : a = k
  · subst ha; by_cases hb : b = a <;> simp [hb]
  · simp [ha]

theorem shiftedIndSum (a k : ℕ) (c : QC) (m : ℕ) :
    (∑ t ∈ Finset.range m, if a = k + t then c else 0) =
      if k ≤ a ∧ a < k + m then c else 0 := by
  induction m with
  | zero =>
    simp only [Finset.range_zero, Finset.sum_empty]
    rw [if_neg (by omega)]
  | succ m ih =>
    rw [Finset.sum_range_succ, ih]
    by_cases h1 : k ≤ a ∧ a < k + m
    · rw [if_pos h1, if_neg (by omega), if_pos (by omega), add_zero]
    · rw [if_neg h1]
      by_cases h2 : a = k + m
      · rw [if_pos h2, if_pos (by omega), zero_add]
      · rw [if_neg h2, if_neg (by omega), add_zero]

theorem boundedIndSum (a : ℕ) (c : QC) (n : ℕ) :
    (∑ i ∈ Finset.range n, if i < a then c else 0) = (min a n) • c := by
  induction n with
  | zero => simp
  | succ n ih =>
    rw [Finset.sum_range_succ, ih]
    by_cases h : n < a
    · rw [if_pos h, min_eq_right (by omega), min_eq_right (by omega), succ_nsmul]
    · rw [if_neg h, min_eq_left (by omega), min_eq_left (by omega), add_zero]

/-- Central counting fact behind the POVM normalization: summing the diagonal
indicators of both pair members over all loop pairs `(i, j)`, `i < j < d`,
counts each diagonal position exactly `d - 1` times. -/
theorem pairDeltaSum (d a b : ℕ) :
    (∑ i ∈ Finset.range (d - 1), ∑ t ∈ Finset.range (d - 1 - i),
        ((if a = i ∧ b = i then (1 : QC) else 0) +
          (if a = (i + 1 + t) ∧ b = (i + 1 + t) then 1 else 0))) =
      if a = b ∧ a < d then ((d - 1 : ℕ) : QC) else 0 := by
  have hsplit :
      (∑ i ∈ Finset.range (d - 1), ∑ t ∈ Finset.range (d - 1 - i),
          ((if a = i ∧ b = i then (1 : QC) else 0) +
            (if a = (i + 1 + t) ∧ b = (i + 1 + t) then 1 else 0))) =
        (∑ i ∈ Finset.range (d - 1), ∑ t ∈ Finset.range (d - 1 - i),
            (if a = i ∧ b = i then (1 : QC) else 0)) +
        (∑ i ∈ Finset.range (d - 1), ∑ t ∈ Finset.range (d - 1 - i),
            (if a = (i + 1 + t) ∧ b = (i + 1 + t) then (1 : QC) else 0)) := by
    rw [← Finset.sum_add_distrib]
    exact Finset.sum_congr rfl fun i _ => by rw [← Finset.sum_add_distrib]
  rw [hsplit]
  have hpart1 :
      (∑ i ∈ Finset.range (d - 1), ∑ t ∈ Finset.range (d - 1 - i),
          (if a = i ∧ b = i then (1 : QC) else 0)) =
        if a < d - 1 then (d - 1 - a) • (if b = a then (1 : QC) else 0) else 0 := by
    have h1 : ∀ i ∈ Finset.range (d - 1),
        (∑ t ∈ Finset.range (d - 1 - i), (if a = i ∧ b = i then (1 : QC) else 0)) =
          if i = a then (d - 1 - i) • (if b = a then (1 : QC) else 0) else 0 := by
      intro i _
      rw [Finset.sum_const, ite_and_split]
      by_cases ha : a = i
      · subst ha
        rw [if_pos rfl, if_pos rfl, Finset.card_range]
      · rw [if_neg ha, if_neg (fun h => ha h.symm), smul_zero]
    rw [Finset.sum_congr rfl h1, Finset.sum_ite_eq' (Finset.range (d - 1)) a
      (fun i => (d - 1 - i) • (if b = a then (1 : QC) else 0))]
    simp [Finset.mem_range]
  have hpart2 :
      (∑ i ∈ Finset.range (d - 1), ∑ t ∈ Finset.range (d - 1 - i),
          (if a = (i + 1 + t) ∧ b = (i + 1 + t) then (1 : QC) else 0)) =
        (if a < d then min a (d - 1) • (if b = a then (1 : QC) else 0) else 0) := by
    have h1 : ∀ i ∈ Finset.range (d - 1),
        (∑ t ∈ Finset.range (d - 1 - i),
            (if a = (i + 1 + t) ∧ b = (i + 1 + t) then (1 : QC) else 0)) =
          if i < a ∧ a < d then (if b = a then (1 : QC) else 0) else 0 := by
      intro i hi
      rw [Finset.mem_range] at hi
      have h2 : ∀ t ∈ Finset.range (d - 1 - i),
          (if a = (i + 1 + t) ∧ b = (i + 1 + t) then (1 : QC) else 0) =
            if a = (i + 1) + t then (if b = a then (1 : QC) else 0) else 0 := by
        intro t _
        rw [ite_and_split]
      rw [Finset.sum_congr rfl h2, shiftedIndSum]
      exact if_congr (by omega) rfl rfl
    rw [Finset.sum_congr rfl h1]
    by_cases had : a < d
    · have h3 : ∀ i ∈ Finset.range (d - 1),
          (if i < a ∧ a < d then (if b = a then (1 : QC) else 0) else 0) =
            if i < a then (if b = a then (1 : QC) else 0) else 0 := by
        intro i _; exact if_congr (and_iff_left had) rfl rfl
      rw [Finset.sum_congr rfl h3, boundedIndSum, if_pos had]
    · have h3 : ∀ i ∈ Finset.range (d - 1),
          (if i < a ∧ a < d then (if b = a then (1 : QC) else 0) else 0) = 0 := by
        intro i _; rw [if_neg (by omega)]
      rw [Finset.sum_congr rfl h3, Finset.sum_const, smul_zero, if_neg had]
  rw [hpart1, hpart2]
  by_cases hba : b = a
  · rw [if_pos hba]
    by_cases had : a < d
    · rw [if_pos had, if_pos (show a = b ∧ a < d from ⟨hba.symm, had⟩)]
      by_cases h4 : a < d - 1
      · rw [if_pos h4, min_eq_left (by omega), ← add_nsmul]
        have h5 : d - 1 - a + a = d - 1 := by omega
        rw [h5, nsmul_eq_mul, mul_one]
      · rw [if_neg h4, min_eq_right (by omega), zero_add, nsmul_eq_mul, mul_one]
    · rw [if_neg (show ¬a < d - 1 by omega), if_neg had, add_zero,
        if_neg (fun h => had h.2)]
  · rw [if_neg hba, smul_zero, smul_zero, ite_self, ite_self, add_zero,
      if_neg (fun h => hba h.1.symm)]

/-- Membership description of the loop pairs. -/
theorem loopPairs_mem {d : ℕ} {p : ℕ × ℕ} (hp : p ∈ loopPairs d) :
    p.1 < p.2 ∧ p.2 < d := by
  unfold loopPairs at hp
  simp only [List.mem_flatMap, List.mem_map, List.mem_range] at hp
  obtain ⟨i, hi, t, ht, hpt⟩ := hp
  subst hpt
  constructor <;> simp <;> omega

/-- Pushing an entry evaluation through `_init_elements_from_vectors`. -/
theorem sumElems_map_elemOfVec (l : List SVec) (a b : ℕ) :
    sumElems (l.map elemOfVec) a b = (l.map fun sv => elemOfVec sv a b).sum := by
  unfold sumElems
  rw [List.map_map]
  rfl

/-- Summing any function over the loop pairs that contributes
`2s * (delta at i + delta at j)` per pair yields the identity matrix,
where `s = 1/(2*(d-1))` is the squared X/Y normalization. -/
theorem loopPairsSum (d a b : ℕ) (hd : 2 ≤ d) (F : ℕ × ℕ → QC)
    (hF : ∀ p ∈ loopPairs d, F p =
      ofQ (2 * (1 / (2 * ((d : ℚ) - 1)))) *
        ((if a = p.1 ∧ b = p.1 then 1 else 0) + (if a = p.2 ∧ b = p.2 then 1 else 0))) :
    ((loopPairs d).map F).sum = idMat d a b := by
  rw [List.map_congr_left hF]
  unfold loopPairs
  rw [list_sum_map_flatMap, list_sum_map_range]
  have hinner : ∀ i ∈ Finset.range (d - 1),
      ((((List.range (d - 1 - i)).map fun t => (i, i + 1 + t)).map fun p =>
          ofQ (2 * (1 / (2 * ((d : ℚ) - 1)))) *
            ((if a = p.1 ∧ b = p.1 then 1 else 0) +
              (if a = p.2 ∧ b = p.2 then 1 else 0))).sum) =
        ofQ (2 * (1 / (2 * ((d : ℚ) - 1)))) *
          (∑ t ∈ Finset.range (d - 1 - i),
            ((if a = i ∧ b = i then (1 : QC) else 0) +
              (if a = (i + 1 + t) ∧ b = (i + 1 + t) then 1 else 0))) := by
    intro i _
    rw [List.map_map, list_sum_map_range, Finset.mul_sum]
    exact Finset.sum_congr rfl fun t _ => rfl
  rw [Finset.sum_congr rfl hinner, ← Finset.mul_sum, pairDeltaSum]
  unfold idMat
  by_cases h : a = b ∧ a < d
  · rw [if_pos h, if_pos h]
    have h1 : ((d : ℚ) - 1) ≠ 0 := by
      have h6 : (2 : ℚ) ≤ (d : ℚ) := by exact_mod_cast hd
      intro hcon
      nlinarith
    have h2 : ((d - 1 : ℕ) : ℚ) = (d : ℚ) - 1 := by
      rw [Nat.cast_sub (by omega)]; simp
    ext
    · simp [h2]
      field_simp
      try ring
    · simp
  · rw [if_neg h, if_neg h, mul_zero]

/-- C5 helper: the X POVM elements sum to the identity. -/
theorem xElements_sum (d : ℕ) (hd : 2 ≤ d) (a b : ℕ) :
    sumElems (xElements d) a b = idMat d a b := by
  unfold xElements
  rw [sumElems_map_elemOfVec]
  unfold xVectors
  rw [list_sum_map_flatMap]
  have hstep : ∀ p ∈ loopPairs d,
      (([(1 / (2 * ((d : ℚ) - 1)), vplusX p.1 p.2),
          (1 / (2 * ((d : ℚ) - 1)), vminusX p.1 p.2)]).map
            fun sv => elemOfVec sv a b).sum =
        ofQ (2 * (1 / (2 * ((d : ℚ) - 1)))) *
          ((if a = p.1 ∧ b = p.1 then 1 else 0) +
            (if a = p.2 ∧ b = p.2 then 1 else 0)) := by
    intro p hp
    have hij : p.1 ≠ p.2 := by have := loopPairs_mem hp; omega
    simp only [List.map_cons, List.map_nil, List.sum_cons, List.sum_nil, add_zero]
    exact xPairSum _ hij a b
  rw [List.map_congr_left hstep]
  exact loopPairsSum d a b hd _ fun p _ => rfl

/-- C5 helper: the Y POVM elements sum to the identity. -/
theorem yElements_sum (d : ℕ) (hd : 2 ≤ d) (a b : ℕ) :
    sumElems (yElements d) a b = idMat d a b := by
  unfold yElements
  rw [sumElems_map_elemOfVec]
  unfold yVectors
  rw [list_sum_map_flatMap]
  have hstep : ∀ p ∈ loopPairs d,
      (([(1 / (2 * ((d : ℚ) - 1)), vplusY p.1 p.2),
          (1 / (2 * ((d : ℚ) - 1)), vminusY p.1 p.2)]).map
            fun sv => elemOfVec sv a b).sum =
        ofQ (2 * (1 / (2 * ((d : ℚ) - 1)))) *
          ((if a = p.1 ∧ b = p.1 then 1 else 0) +
            (if a = p.2 ∧ b = p.2 then 1 else 0)) := by
    intro p hp
    have hij : p.1 ≠ p.2 := by have := loopPairs_mem hp; omega
    simp only [List.map_cons, List.map_nil, List.sum_cons, List.sum_nil, add_zero]
    exact yPairSum _ hij a b
  rw [List.map_congr_left hstep]
  exact loopPairsSum d a b hd _ fun p _ => rfl

/-- C5 helper: the Z POVM elements sum to the identity (for every `d`). -/
theorem zElements_sum (d : ℕ) (a b : ℕ) :
    sumElems (zElements d) a b = idMat d a b := by
  unfold zElements
  rw [sumElems_map_elemOfVec]
  unfold zVectors
  rw [List.map_map, list_sum_map_range]
  have hstep : ∀ i ∈ Finset.range d,
      elemOfVec ((1 : ℚ), fun a => if a = i then (1 : QC) else 0) a b =
        if i = a then (if b = a then (1 : QC) else 0) else 0 := by
    intro i _
    unfold elemOfVec
    show ofQ 1 * (indQ a i * conj (indQ b i)) = _
    rw [conj_indQ, indQ_mul_indQ, ofQ_one, one_mul, ite_and_split]
    by_cases h : a = i
    · subst h
      rw [if_pos rfl]
    · rw [if_neg h, if_neg (fun hh => h hh.symm)]
  simp only [Function.comp_apply]
  rw [Finset.sum_congr rfl hstep,
    Finset.sum_ite_eq' (Finset.range d) a fun _ => if b = a then (1 : QC) else 0]
  unfold idMat
  by_cases had : a < d
  · rw [if_pos (Finset.mem_range.mpr had)]
    by_cases hba : b = a
    · rw [if_pos hba, if_pos ⟨hba.symm, had⟩]
    · rw [if_neg hba, if_neg (fun h => hba h.1.symm)]
  · rw [if_neg (fun h => had (Finset.mem_range.mp h)), if_neg (fun h => had h.2)]

theorem sumElems_append (l1 l2 : List Mat) (a b : ℕ) :
    sumElems (l1 ++ l2) a b = sumElems l1 a b + sumElems l2 a b := by
  unfold sumElems
  rw [List.map_append, List.sum_append]

theorem sumElems_scale (w : ℚ) (l : List Mat) (a b : ℕ) :
    sumElems (l.map (scaleMat w)) a b = ofQ w * sumElems l a b := by
  unfold sumElems scaleMat
  rw [List.map_map, ← list_sum_map_mul_left]
  rfl

/-- C5 helper: the informationally complete `PauliGen` elements sum exactly
to the identity, for every `d ≥ 2`. -/
theorem pauliGen_sum (d : ℕ) (hd : 2 ≤ d) (a b : ℕ) :
    sumElems (pauliGenElements d) a b = idMat d a b := by
  unfold pauliGenElements combinedElements pauliParts
  by_cases hd2 : d = 2
  · rw [if_pos hd2]
    simp only [List.flatMap_cons, List.flatMap_nil, List.append_nil]
    rw [sumElems_append, sumElems_append, sumElems_scale, sumElems_scale,
      sumElems_scale, xElements_sum d hd, yElements_sum d hd, zElements_sum d]
    have h1 : ofQ (1/3) * idMat d a b + (ofQ (1/3) * idMat d a b +
        ofQ (1/3) * idMat d a b) = (ofQ (1/3) + ofQ (1/3) + ofQ (1/3)) * idMat d a b := by
      ring
    rw [h1]
    have h2 : ofQ (1/3) + ofQ (1/3) + ofQ (1/3) = 1 := by ext <;> simp <;> norm_num
    rw [h2, one_mul]
  · rw [if_neg hd2]
    simp only [List.flatMap_cons, List.flatMap_nil, List.append_nil]
    rw [sumElems_append, sumElems_scale, sumElems_scale,
      xElements_sum d hd, yElements_sum d hd]
    have h1 : ofQ (1/2) * idMat d a b + ofQ (1/2) * idMat d a b =
        (ofQ (1/2) + ofQ (1/2)) * idMat d a b := by ring
    rw [h1]
    have h2 : ofQ (1/2) + ofQ (1/2) = 1 := by ext <;> simp <;> norm_num
    rw [h2, one_mul]

/-- **C5.** For every local dimension `d ≥ 2`, the elements of each of the
X, Y and Z local POVMs of `povm.py` sum (with the weights baked into the
construction) to the `d`-dimensional identity, and the elements of the
informationally complete `PauliGen` combination sum exactly to the identity
(`d = 2`: X, Y, Z with weight 1/3 each; `d > 2`: X, Y with weight 1/2
each). -/
theorem claim_C5 (d : ℕ) (hd : 2 ≤ d) :
    (∀ a b, LocalPovm.sumElems (LocalPovm.xElements d) a b = LocalPovm.idMat d a b) ∧
    (∀ a b, LocalPovm.sumElems (LocalPovm.yElements d) a b = LocalPovm.idMat d a b) ∧
    (∀ a b, LocalPovm.sumElems (LocalPovm.zElements d) a b = LocalPovm.idMat d a b) ∧
    (∀ a b, LocalPovm.sumElems (LocalPovm.pauliGenElements d) a b =
      LocalPovm.idMat d a b) :=
  ⟨fun a b => xElements_sum d hd a b, fun a b => yElements_sum d hd a b,
    fun a b => zElements_sum d a b, fun a b => pauliGen_sum d hd a b⟩

/-- Witness for C5 at the concrete dimension `d = 2`. -/
theorem claim_C5_witness :
    2 ≤ 2 ∧
    ((∀ a b, LocalPovm.sumElems (LocalPovm.xElements 2) a b = LocalPovm.idMat 2 a b) ∧
     (∀ a b, LocalPovm.sumElems (LocalPovm.yElements 2) a b = LocalPovm.idMat 2 a b) ∧
     (∀ a b, LocalPovm.sumElems (LocalPovm.zElements 2) a b = LocalPovm.idMat 2 a b) ∧
     (∀ a b, LocalPovm.sumElems (LocalPovm.pauliGenElements 2) a b =
       LocalPovm.idMat 2 a b)) :=
  ⟨by norm_num, claim_C5 2 (by norm_num)⟩

theorem scaledVec_outer (w : ℚ) (l : List SVec) :
    ((l.map fun sv => (w ^ 2 * sv.1, sv.2)).map elemOfVec) =
      ((l.map elemOfVec).map (scaleMat w)).map (scaleMat w) := by
  rw [List.map_map, List.map_map, List.map_map]
  apply List.map_congr_left
  intro sv _
  funext a b
  show ofQ (w ^ 2 * sv.1) * (sv.2 a * conj (sv.2 b)) =
    ofQ w * (ofQ w * (ofQ sv.1 * (sv.2 a * conj (sv.2 b))))
  have h1 : w ^ 2 * sv.1 = w * (w * sv.1) := by ring
  rw [h1, ofQ_mul, ofQ_mul]
  ring

/-- **C6 (amended).** The rank-1 `vectors` invariant holds exactly for the
X, Y and Z POVMs: the self-outer-product of `vectors[k]` equals
`elements[k]` (this is `_init_elements_from_vectors`).  For the combined
`PauliGen` POVM the invariant fails: `Combined._init_combined` multiplies the
vectors by `weight` (instead of `sqrt(weight)`) while the elements are
multiplied by `weight`, so the self-outer-product of `vectors[k]` equals
`weight * elements[k]` (weight `1/3` for `d = 2`, `1/2` otherwise), not
`elements[k]`. -/
theorem claim_C6_amended (d : ℕ) :
    ((LocalPovm.xVectors d).map LocalPovm.elemOfVec = LocalPovm.xElements d) ∧
    ((LocalPovm.yVectors d).map LocalPovm.elemOfVec = LocalPovm.yElements d) ∧
    ((LocalPovm.zVectors d).map LocalPovm.elemOfVec = LocalPovm.zElements d) ∧
    ((LocalPovm.pauliGenVectors d).map LocalPovm.elemOfVec =
      (LocalPovm.pauliGenElements d).map
        (LocalPovm.scaleMat (LocalPovm.pauliWeight d))) := by
  refine ⟨rfl, rfl, rfl, ?_⟩
  unfold pauliGenVectors pauliGenElements combinedVectors combinedElements
    pauliParts pauliWeight
  by_cases hd2 : d = 2
  · rw [if_pos hd2, if_pos hd2]
    simp only [List.flatMap_cons, List.flatMap_nil, List.append_nil,
      List.map_append]
    rw [scaledVec_outer, scaledVec_outer, scaledVec_outer]
    rfl
  · rw [if_neg hd2, if_neg hd2]
    simp only [List.flatMap_cons, List.flatMap_nil, List.append_nil,
      List.map_append]
    rw [scaledVec_outer, scaledVec_outer]
    rfl

/-- **C6 (counterexample).** For the `PauliGen` POVM at `d = 2` and element
index `k = 0`, the `(0,0)` entry of the self-outer-product of `vectors[0]`
is `1/18`, while the `(0,0)` entry of `elements[0]` is `1/6`; the claimed
invariant `outer(vectors[k]) = elements[k]` is therefore false. -/
theorem claim_C6_counterexample :
    ¬ ((((LocalPovm.pauliGenVectors 2).map LocalPovm.elemOfVec).get? 0).map
        (fun E => E 0 0) =
      ((LocalPovm.pauliGenElements 2).get? 0).map (fun E => E 0 0)) := by
  intro hcon
  rw [show (((LocalPovm.pauliGenVectors 2).map LocalPovm.elemOfVec).get? 0).map
        (fun E => E 0 0) =
        some (elemOfVec ((1/3 : ℚ) ^ 2 * (1 / (2 * (((2 : ℕ) : ℚ) - 1))),
          vplusX 0 1) 0 0)
      from rfl,
    show ((LocalPovm.pauliGenElements 2).get? 0).map (fun E => E 0 0) =
        some (scaleMat (1/3)
          (elemOfVec ((1 / (2 * (((2 : ℕ) : ℚ) - 1))), vplusX 0 1)) 0 0)
      from rfl] at hcon
  rw [Option.some_inj] at hcon
  have h1 : elemOfVec ((1/3 : ℚ) ^ 2 * (1 / (2 * (((2 : ℕ) : ℚ) - 1))),
      vplusX 0 1) 0 0 = ⟨1/18, 0⟩ := by
    unfold elemOfVec vplusX
    ext <;> simp <;> norm_num
  have h2 : scaleMat (1/3)
      (elemOfVec ((1 / (2 * (((2 : ℕ) : ℚ) - 1))), vplusX 0 1)) 0 0 = ⟨1/6, 0⟩ := by
    unfold scaleMat elemOfVec vplusX
    ext <;> simp <;> norm_num
  rw [h1, h2] at hcon
  have h3 : (1/18 : ℚ) = 1/6 := congrArg QC.re hcon
  norm_num at h3

end LocalPovm

namespace MPP

open QC

/-- **C3.** `find_matching_elements` prefactors are reciprocal: wherever the
match tensors of both directions flag a pair of elements (so the prefactor is
defined, not NaN, in both orders), `prefactor(self,other)[i,j] =
1/prefactor(other,self)[j,i]`.  Stated on the squared prefactors carried by
the model: `prefactorSq A B = 1 / prefactorSq B A`.  The indexing `[i,j]` /
`[j,i]` in both directions forces the two POVMs to measure the same sites,
in which case the outcome-collapsing reduction step is the identity and both
calls compare the same two element families, here represented by the two
matrices `A` (an element of `self`) and `B` (an element of `other`). -/
theorem claim_C3 (D : ℕ) (A B : Mat) (eps : ℚ)
    (hA : 0 < MPP.normSqR D A) (hB : 0 < MPP.normSqR D B)
    (hAB : MPP.matchB eps D A B = true) (hBA : MPP.matchB eps D B A = true) :
    MPP.prefactorSq D A B = 1 / MPP.prefactorSq D B A := by
  unfold prefactorSq
  rw [one_div_div]

/-- Witness for C3: on the 2-dimensional space, the element `E00` of `self`
matches the proportional element `2*E00` of `other` in both directions
(with `eps = 1e-10`), and the reciprocity holds there. -/
theorem claim_C3_witness :
    0 < MPP.normSqR 2 (fun a b => if a = 0 ∧ b = 0 then 1 else 0) ∧
    0 < MPP.normSqR 2 (fun a b => if a = 0 ∧ b = 0 then ⟨2, 0⟩ else 0) ∧
    MPP.matchB (1/10^10) 2 (fun a b => if a = 0 ∧ b = 0 then 1 else 0)
      (fun a b => if a = 0 ∧ b = 0 then ⟨2, 0⟩ else 0) = true ∧
    MPP.matchB (1/10^10) 2 (fun a b => if a = 0 ∧ b = 0 then ⟨2, 0⟩ else 0)
      (fun a b => if a = 0 ∧ b = 0 then 1 else 0) = true ∧
    MPP.prefactorSq 2 (fun a b => if a = 0 ∧ b = 0 then 1 else 0)
        (fun a b => if a = 0 ∧ b = 0 then ⟨2, 0⟩ else 0) =
      1 / MPP.prefactorSq 2 (fun a b => if a = 0 ∧ b = 0 then ⟨2, 0⟩ else 0)
        (fun a b => if a = 0 ∧ b = 0 then 1 else 0) := by
  have h1 : MPP.normSqR 2 (fun a b => if a = 0 ∧ b = 0 then 1 else 0) = 1 := by
    unfold normSqR minner
    simp [Finset.sum_range_succ, conj]
  have h2 : MPP.normSqR 2 (fun a b => if a = 0 ∧ b = 0 then ⟨2, 0⟩ else 0) = 4 := by
    unfold normSqR minner
    simp [Finset.sum_range_succ, conj]
    norm_num
  have h3 : MPP.minner 2 (fun a b => if a = 0 ∧ b = 0 then (1 : QC) else 0)
      (fun a b => if a = 0 ∧ b = 0 then ⟨2, 0⟩ else 0) = ⟨2, 0⟩ := by
    unfold minner
    simp [Finset.sum_range_succ, conj]
    all_goals (ext <;> simp)
  have h4 : MPP.minner 2 (fun a b => if a = 0 ∧ b = 0 then (⟨2, 0⟩ : QC) else 0)
      (fun a b => if a = 0 ∧ b = 0 then 1 else 0) = ⟨2, 0⟩ := by
    unfold minner
    simp [Finset.sum_range_succ, conj]
    all_goals (ext <;> simp)
  have h5 : QC.absSq ⟨2, 0⟩ = 4 := by unfold QC.absSq; norm_num
  have hm1 : MPP.matchB (1/10^10) 2 (fun a b => if a = 0 ∧ b = 0 then 1 else 0)
      (fun a b => if a = 0 ∧ b = 0 then ⟨2, 0⟩ else 0) = true := by
    unfold matchB
    rw [h1, h2, h3, h5]
    norm_num
  have hm2 : MPP.matchB (1/10^10) 2
      (fun a b => if a = 0 ∧ b = 0 then (⟨2, 0⟩ : QC) else 0)
      (fun a b => if a = 0 ∧ b = 0 then 1 else 0) = true := by
    unfold matchB
    rw [h1, h2, h4, h5]
    norm_num
  exact ⟨by rw [h1]; norm_num, by rw [h2]; norm_num, hm1, hm2,
    claim_C3 2 _ _ (1/10^10) (by rw [h1]; norm_num) (by rw [h2]; norm_num) hm1 hm2⟩

/-- **C4.** The claim says `find_matching_elements(other, exclude_dup)` with
`'self'` (or `'other'`) in `exclude_dup` performs the no-duplicate assertion
and otherwise returns the same result as with `exclude_dup=()`.  In the code
this is impossible: line 288 reads the undefined name `exclude_duplicates`,
so every call with a non-empty `exclude_dup` ends in `NameError`, regardless
of the element families.  The theorem evaluates the modelled code on every
such input. -/
theorem claim_C4 (eps : ℚ) (ed : List String) (P Q : MPP.Fam)
    (hD : P.D = Q.D) (hed : ed ≠ []) :
    MPP.find_matching_elements eps ed P Q = .error .nameError := by
  unfold find_matching_elements
  rw [if_neg (not_not_intro hD), if_pos (List.length_pos.mpr hed)]

/-- Witness for C4: a concrete call with `exclude_dup = ['self']` on the
(flattened) single-site Z POVM raises the `NameError`. -/
theorem claim_C4_witness :
    (⟨2, 2, fun i => fun a b => if a = b ∧ a = i ∧ a < 2 then 1 else 0⟩ : MPP.Fam).D =
      (⟨2, 2, fun i => fun a b => if a = b ∧ a = i ∧ a < 2 then 1 else 0⟩ : MPP.Fam).D ∧
    (["self"] : List String) ≠ [] ∧
    MPP.find_matching_elements (1/10^10) ["self"]
      ⟨2, 2, fun i => fun a b => if a = b ∧ a = i ∧ a < 2 then 1 else 0⟩
      ⟨2, 2, fun i => fun a b => if a = b ∧ a = i ∧ a < 2 then 1 else 0⟩ =
      .error .nameError :=
  ⟨rfl, by simp, claim_C4 (1/10^10) ["self"] _ _ rfl (by simp)⟩

/-- Partition of the sample rows over the outcomes: when every sample lies
below `K`, the per-outcome counts of `count_samples` sum to the number of
samples. -/
theorem count_partition (K : ℕ) (samples : List ℕ)
    (hs : ∀ s ∈ samples, s < K) :
    ∑ o ∈ Finset.range K, count_samples samples o = samples.length := by
  induction samples with
  | nil => simp [count_samples]
  | cons a t ih =>
    have ht : ∀ s ∈ t, s < K := fun s hsm => hs s (List.mem_cons_of_mem a hsm)
    have ha : a < K := hs a (List.mem_cons_self a t)
    have hstep : ∀ o, count_samples (a :: t) o =
        count_samples t o + if a = o then 1 else 0 := by
      intro o
      unfold count_samples
      rw [List.countP_cons]
      congr 1
      by_cases hao : a = o
      · rw [if_pos (beq_iff_eq.mpr hao), if_pos hao]
      · rw [if_neg (by simpa using hao), if_neg hao]
    rw [Finset.sum_congr rfl fun o _ => hstep o, Finset.sum_add_distrib,
      ih ht, Finset.sum_ite_eq (Finset.range K) a (fun _ => 1),
      if_pos (Finset.mem_range.mpr ha), List.length_cons]

/-- The inner accumulation of `counts_from` in the self-calibration case:
with the match tensor equal to the identity and unit diagonal prefactors,
the row sum collapses to `count_samples samples o / n_samples`. -/
theorem counts_inner_self (eps : ℚ) (P : Fam) (pf : ℕ → ℕ → ℚ)
    (samples : List ℕ) (o : ℕ) (ho : o < P.K)
    (hdiag : ∀ i j, i < P.K → j < P.K → (matchF eps P P i j = true ↔ i = j))
    (hpf : ∀ i, i < P.K → pf i i = 1) :
    (∑ j ∈ Finset.range P.K, if matchF eps P P o j then
        pf o j * (count_samples samples j : ℚ) / samples.length else 0) =
      (count_samples samples o : ℚ) / samples.length := by
  have hsum : ∀ j ∈ Finset.range P.K,
      (if matchF eps P P o j then
        pf o j * (count_samples samples j : ℚ) / samples.length else 0) =
      if j = o then
        (count_samples samples j : ℚ) / samples.length else 0 := by
    intro j hj
    rw [Finset.mem_range] at hj
    by_cases hoj : j = o
    · subst hoj
      rw [if_pos ((hdiag j j hj hj).mpr rfl), if_pos rfl, hpf j hj, one_mul]
    · rw [if_neg hoj, if_neg (by
        intro hm
        exact hoj ((hdiag o j ho hj).mp hm).symm)]
  rw [Finset.sum_congr rfl hsum,
    Finset.sum_ite_eq' (Finset.range P.K) o
      (fun j => (count_samples samples j : ℚ) / samples.length),
    if_pos (Finset.mem_range.mpr ho)]

/-- Self-calibration of `counts_from`, the content behind claim C2: see
`claim_C2_amended`. -/
theorem counts_from_self (eps : ℚ) (P : Fam) (pf : ℕ → ℕ → ℚ) (apf : ℚ)
    (samples : List ℕ)
    (hK : 0 < P.K)
    (hdiag : ∀ i j, i < P.K → j < P.K → (matchF eps P P i j = true ↔ i = j))
    (hnorm : ∀ i, i < P.K → 0 < normSqR P.D (P.elem i))
    (hpf : ∀ i, i < P.K → pf i i = 1)
    (hcs : eyeCsValid eps P (givenF eps P P) = true)
    (heye : eyeTest eps P (givenF eps P P) = true)
    (hapf : 0 ≤ apf ∧ apf ^ 2 * normSqR P.D (LocalPovm.idMat P.D) =
      normSqR P.D (elemSumF P (givenF eps P P)))
    (happf : |apf - 1| ≤ eps)
    (hs : ∀ s ∈ samples, s < P.K) (hn : samples ≠ []) :
    counts_from eps P P pf apf samples =
      .ok (fun o => if o < P.K then
          some ((count_samples samples o : ℚ) / samples.length) else none,
        samples.length) ∧
    ∀ i, i < P.K → prefactorSq P.D (P.elem i) (P.elem i) = 1 := by
  have hgiven : ∀ o, o < P.K → givenF eps P P o = true := by
    intro o ho
    unfold givenF
    rw [List.any_eq_true]
    exact ⟨o, List.mem_range.mpr ho, (hdiag o o ho ho).mpr rfl⟩
  have hall : (List.range P.K).all (givenF eps P P) = true := by
    rw [List.all_eq_true]
    intro o homem
    exact hgiven o (List.mem_range.mp homem)
  have hapfok : apfOk eps P (givenF eps P P) apf = true := by
    unfold apfOk anyMissing
    rw [hall]
    simpa using happf
  have hlen : (samples.length : ℚ) ≠ 0 :=
    Nat.cast_ne_zero.mpr fun h => hn (List.length_eq_zero.mp h)
  have hcsum : countsSum eps P P pf samples = 1 := by
    unfold countsSum
    rw [Finset.sum_congr rfl fun o homem =>
        counts_inner_self eps P pf samples o (Finset.mem_range.mp homem)
          hdiag hpf,
      ← Finset.sum_div,
      show (∑ o ∈ Finset.range P.K, (count_samples samples o : ℚ)) =
          (samples.length : ℚ) from by
        exact_mod_cast count_partition P.K samples hs]
    exact div_self hlen
  have hsumok : |countsSum eps P P pf samples - apf| ≤ eps := by
    rw [hcsum, abs_sub_comm]
    exact happf
  constructor
  · unfold counts_from
    rw [if_neg (not_not_intro (by
        rw [List.any_eq_true]
        exact ⟨0, List.mem_range.mpr hK, hgiven 0 hK⟩)),
      if_neg (not_not_intro hcs),
      if_neg (not_not_intro heye),
      if_neg (not_not_intro hapfok),
      if_neg (not_not_intro hsumok)]
    refine congrArg Except.ok (Prod.ext ?_ ?_)
    · funext o
      dsimp only
      by_cases ho : o < P.K
      · rw [if_pos ⟨ho, hgiven o ho⟩, if_pos ho,
          counts_inner_self eps P pf samples o ho hdiag hpf]
      · rw [if_neg (fun h => ho h.1), if_neg ho]
    · dsimp only
      rw [List.countP_eq_length]
      intro s hsmem
      rw [List.any_eq_true]
      exact ⟨s, List.mem_range.mpr (hs s hsmem), (hdiag s s (hs s hsmem)
        (hs s hsmem)).mpr rfl⟩
  · intro i hi
    unfold prefactorSq
    exact div_self (ne_of_gt (hnorm i hi))

/-- **C2 (amended).** Self-calibration: for an MPPovm whose elements are
pairwise non-proportional (so the match tensor is the identity) and which
passes the `_elemsum_identity` test — the Cauchy-Schwarz validity assert of
line 638, the equality test of lines 639-640, and the line 646 prefactor
bound `abs(all_prefactor - 1.0) <= eps` for the true `all_prefactor =
sum_norm / eye_norm` (here `apf`, pinned by its square) — `counts_from(self,
samples)` passes the line 704 assert `abs(counts.sum() - all_prefactor) <=
eps` and returns the counts array equal entry for entry to
`count_samples(samples) / n_samples` (the code normalizes by `n_samples` at
line 702, so the two agree only after this division), with `n_samples_used
= n_samples`; and every diagonal prefactor equals `1` (stated on the
squared prefactors: `prefactorSq = snormsq/onormsq = 1`). -/
theorem claim_C2_amended (eps : ℚ) (P : Fam) (pf : ℕ → ℕ → ℚ) (apf : ℚ)
    (samples : List ℕ)
    (hK : 0 < P.K)
    (hdiag : ∀ i j, i < P.K → j < P.K → (matchF eps P P i j = true ↔ i = j))
    (hnorm : ∀ i, i < P.K → 0 < normSqR P.D (P.elem i))
    (hpf : ∀ i, i < P.K → pf i i = 1)
    (hcs : eyeCsValid eps P (givenF eps P P) = true)
    (heye : eyeTest eps P (givenF eps P P) = true)
    (hapf : 0 ≤ apf ∧ apf ^ 2 * normSqR P.D (LocalPovm.idMat P.D) =
      normSqR P.D (elemSumF P (givenF eps P P)))
    (happf : |apf - 1| ≤ eps)
    (hs : ∀ s ∈ samples, s < P.K) (hn : samples ≠ []) :
    counts_from eps P P pf apf samples =
      .ok (fun o => if o < P.K then
          some ((count_samples samples o : ℚ) / samples.length) else none,
        samples.length) ∧
    ∀ i, i < P.K → prefactorSq P.D (P.elem i) (P.elem i) = 1 :=
  counts_from_self eps P pf apf samples hK hdiag hnorm hpf hcs heye hapf
    happf hs hn

theorem zFam_norm : ∀ i, i < zFam.K → 0 < normSqR zFam.D (zFam.elem i) := by
  intro i hi
  have hi2 : i < 2 := hi
  interval_cases i <;>
    (unfold normSqR minner zFam
     simp [Finset.sum_range_succ, QC.conj])

theorem zFam_match : ∀ i j, i < zFam.K → j < zFam.K →
    (matchF (1/10^10) zFam zFam i j = true ↔ i = j) := by
  intro i j hi hj
  have hi2 : i < 2 := hi
  have hj2 : j < 2 := hj
  interval_cases i <;> interval_cases j <;>
    (unfold matchF matchB normSqR minner zFam
     simp [Finset.sum_range_succ, QC.conj, QC.absSq]
     all_goals norm_num)

theorem zFam_given0 : givenF (1/10^10) zFam zFam 0 = true := by
  unfold givenF
  rw [List.any_eq_true]
  exact ⟨0, by simp [zFam], (zFam_match 0 0 (by norm_num [zFam])
    (by norm_num [zFam])).mpr rfl⟩

theorem zFam_given1 : givenF (1/10^10) zFam zFam 1 = true := by
  unfold givenF
  rw [List.any_eq_true]
  exact ⟨1, by simp [zFam], (zFam_match 1 1 (by norm_num [zFam])
    (by norm_num [zFam])).mpr rfl⟩

theorem zFam_eye :
    eyeTest (1/10^10) zFam (givenF (1/10^10) zFam zFam) = true := by
  have hg0 := zFam_given0
  have hg1 := zFam_given1
  unfold eyeTest
  rw [decide_eq_true_eq]
  refine Or.inr ?_
  unfold normSqR minner elemSumF LocalPovm.idMat zFam
  rw [show MPP.zFam = ⟨2, 2, fun i => fun a b =>
    if a = b ∧ a = i ∧ a < 2 then 1 else 0⟩ from rfl] at hg0 hg1
  simp only [Finset.sum_range_succ, Finset.sum_range_zero, hg0, hg1]
  simp [QC.conj, QC.absSq]
  all_goals norm_num

theorem zFam_csValid :
    eyeCsValid (1/10^10) zFam (givenF (1/10^10) zFam zFam) = true := by
  have hg0 := zFam_given0
  have hg1 := zFam_given1
  unfold eyeCsValid
  rw [decide_eq_true_eq]
  unfold normSqR minner elemSumF LocalPovm.idMat zFam
  rw [show MPP.zFam = ⟨2, 2, fun i => fun a b =>
    if a = b ∧ a = i ∧ a < 2 then 1 else 0⟩ from rfl] at hg0 hg1
  simp only [Finset.sum_range_succ, Finset.sum_range_zero, hg0, hg1]
  simp [QC.conj, QC.absSq]
  all_goals norm_num

theorem zFam_apf : (0:ℚ) ≤ 1 ∧
    (1:ℚ) ^ 2 * normSqR zFam.D (LocalPovm.idMat zFam.D) =
      normSqR zFam.D (elemSumF zFam (givenF (1/10^10) zFam zFam)) := by
  refine ⟨by norm_num, ?_⟩
  have hg0 := zFam_given0
  have hg1 := zFam_given1
  unfold normSqR minner elemSumF LocalPovm.idMat zFam
  rw [show MPP.zFam = ⟨2, 2, fun i => fun a b =>
    if a = b ∧ a = i ∧ a < 2 then 1 else 0⟩ from rfl] at hg0 hg1
  simp only [Finset.sum_range_succ, Finset.sum_range_zero, hg0, hg1]
  simp [QC.conj]
  all_goals norm_num

/-- Witness for C2: self-calibration of the concrete flattened Z POVM on the
samples `[0, 1]`, with the constant prefactor tensor `1` and
`all_prefactor = 1` (`E00 + E11` is exactly the identity, so
`sum_norm / eye_norm = 1`, and `abs(all_prefactor - 1.0) = 0 <= eps`). -/
theorem claim_C2_witness :
    0 < zFam.K ∧ |(1:ℚ) - 1| ≤ 1/10^10 ∧
    (counts_from (1/10^10) zFam zFam (fun _ _ => 1) 1 [0, 1] =
      .ok (fun o => if o < zFam.K then
          some ((count_samples [0, 1] o : ℚ) / ([0, 1] : List ℕ).length)
        else none, ([0, 1] : List ℕ).length) ∧
     ∀ i, i < zFam.K →
       prefactorSq zFam.D (zFam.elem i) (zFam.elem i) = 1) :=
  ⟨by norm_num [zFam], by norm_num,
   claim_C2_amended (1/10^10) zFam (fun _ _ => 1) 1 [0, 1]
     (by norm_num [zFam])
     zFam_match
     zFam_norm
     (fun _ _ => rfl)
     zFam_csValid
     zFam_eye
     zFam_apf
     (by norm_num)
     (by intro s hs
         fin_cases hs <;> norm_num [zFam])
     (by simp)⟩

/-- **C2 (counterexample).** The claim as stated says
`counts_from(self, samples)` equals `count_samples(samples)` entry for
entry.  For the flattened Z POVM with the two samples `[0, 0]`, the counts
array entry at outcome `0` is `1.0` (the code divides by `n_samples` at line
702), but `count_samples` gives the raw count `2`. -/
theorem claim_C2_counterexample :
    countsEntry
        (counts_from (1/10^10) zFam zFam (fun _ _ => 1) 1 [0, 0]) 0 =
      some (1 : ℚ) ∧
    count_samples [0, 0] 0 = 2 ∧
    countsEntry
        (counts_from (1/10^10) zFam zFam (fun _ _ => 1) 1 [0, 0]) 0 ≠
      some ((count_samples [0, 0] 0 : ℕ) : ℚ) := by
  have hcf := counts_from_self (1/10^10) zFam (fun _ _ => 1) 1 [0, 0]
    (by norm_num [zFam]) zFam_match zFam_norm (fun _ _ => rfl)
    zFam_csValid zFam_eye zFam_apf (by norm_num)
    (by intro s hs
        fin_cases hs <;> norm_num [zFam])
    (by simp)
  have hentry : countsEntry
      (counts_from (1/10^10) zFam zFam (fun _ _ => 1) 1 [0, 0]) 0 =
      some (1 : ℚ) := by
    rw [hcf.1]
    unfold countsEntry
    have hc : count_samples [0, 0] 0 = 2 := rfl
    norm_num [zFam, hc]
  refine ⟨hentry, rfl, ?_⟩
  rw [hentry]
  have hc : count_samples [0, 0] 0 = 2 := rfl
  rw [hc]
  intro hcon
  rw [Option.some_inj] at hcon
  norm_num at hcon

theorem z2Fam_given : ∀ o, o < 2 → givenF (1/10^10) z2Fam z2Fam o = true := by
  intro o ho
  unfold givenF
  rw [List.any_eq_true]
  refine ⟨o, by simpa [z2Fam] using ho, ?_⟩
  interval_cases o <;>
    (unfold matchF matchB normSqR minner z2Fam
     simp [Finset.sum_range_succ, QC.conj, QC.absSq]
     all_goals norm_num)

theorem z2Fam_csValid :
    eyeCsValid (1/10^10) z2Fam (givenF (1/10^10) z2Fam z2Fam) = true := by
  have hg0 := z2Fam_given 0 (by norm_num)
  have hg1 := z2Fam_given 1 (by norm_num)
  unfold eyeCsValid
  rw [decide_eq_true_eq]
  unfold normSqR minner elemSumF LocalPovm.idMat z2Fam
  rw [show MPP.z2Fam = ⟨2, 2, fun i => fun a b =>
    if a = b ∧ a = i ∧ a < 2 then ⟨2, 0⟩ else 0⟩ from rfl] at hg0 hg1
  simp only [Finset.sum_range_succ, Finset.sum_range_zero, hg0, hg1]
  simp [QC.conj, QC.absSq]
  all_goals norm_num

theorem z2Fam_eye :
    eyeTest (1/10^10) z2Fam (givenF (1/10^10) z2Fam z2Fam) = true := by
  have hg0 := z2Fam_given 0 (by norm_num)
  have hg1 := z2Fam_given 1 (by norm_num)
  unfold eyeTest
  rw [decide_eq_true_eq]
  refine Or.inr ?_
  unfold normSqR minner elemSumF LocalPovm.idMat z2Fam
  rw [show MPP.z2Fam = ⟨2, 2, fun i => fun a b =>
    if a = b ∧ a = i ∧ a < 2 then ⟨2, 0⟩ else 0⟩ from rfl] at hg0 hg1
  simp only [Finset.sum_range_succ, Finset.sum_range_zero, hg0, hg1]
  simp [QC.conj, QC.absSq]
  all_goals norm_num

/-- Fidelity of the error path of `_elemsum_identity`: for the doubled
family `{2*E00, 2*E11}` all elements are matched and pairwise
non-proportional, the true `all_prefactor` is `2` (pinned by its square:
`2^2 * eye_normsq = sum_normsq`), and `counts_from` hits the line 646
assert `abs(all_prefactor - 1.0) <= eps`, raising `AssertionError` instead
of returning counts. -/
theorem z2Fam_identity_assert :
    ((2:ℚ) ^ 2 * normSqR z2Fam.D (LocalPovm.idMat z2Fam.D) =
      normSqR z2Fam.D (elemSumF z2Fam (givenF (1/10^10) z2Fam z2Fam))) ∧
    counts_from (1/10^10) z2Fam z2Fam (fun _ _ => 1) 2 [0, 1] =
      .error .assertionError := by
  have hg0 := z2Fam_given 0 (by norm_num)
  have hg1 := z2Fam_given 1 (by norm_num)
  constructor
  · unfold normSqR minner elemSumF LocalPovm.idMat z2Fam
    rw [show MPP.z2Fam = ⟨2, 2, fun i => fun a b =>
      if a = b ∧ a = i ∧ a < 2 then ⟨2, 0⟩ else 0⟩ from rfl] at hg0 hg1
    simp only [Finset.sum_range_succ, Finset.sum_range_zero, hg0, hg1]
    simp [QC.conj]
    all_goals norm_num
  · have hall : (List.range z2Fam.K).all (givenF (1/10^10) z2Fam z2Fam) =
        true := by
      rw [List.all_eq_true]
      intro o homem
      exact z2Fam_given o (by simpa [z2Fam] using homem)
    have hapfok :
        apfOk (1/10^10) z2Fam (givenF (1/10^10) z2Fam z2Fam) 2 = false := by
      unfold apfOk anyMissing
      rw [hall]
      simp
      norm_num
    unfold counts_from
    rw [if_neg (not_not_intro (by
        rw [List.any_eq_true]
        exact ⟨0, by norm_num [z2Fam], hg0⟩)),
      if_neg (not_not_intro z2Fam_csValid),
      if_neg (not_not_intro z2Fam_eye),
      if_pos (by rw [hapfok]; exact Bool.false_ne_true)]


theorem runCond_eq (dims : List ℕ) (p : List ℕ → ℚ) :
    ∀ (gs : List (List ℕ)) (pre : List ℕ) (v : ℚ), gs ≠ [] → 0 < v →
    (∀ k, 0 < k → k < gs.length →
      0 < margD (dims.drop (pre.length + ((gs.take k).flatten).length)) p
        (pre ++ (gs.take k).flatten)) →
    0 ≤ margD (dims.drop (pre.length + (gs.flatten).length)) p
      (pre ++ gs.flatten) →
    runCond dims p gs pre v =
      margD (dims.drop (pre.length + (gs.flatten).length)) p
        (pre ++ gs.flatten) := by
  intro gs
  induction gs with
  | nil => intro pre v hne; exact absurd rfl hne
  | cons g gs ih =>
    intro pre v _ hv hmid hfin
    by_cases hgs : gs = []
    · subst hgs
      simp only [List.flatten_cons, List.flatten_nil, List.append_nil] at hfin ⊢
      unfold runCond
      have hpc : 0 ≤ margD (dims.drop (pre.length + g.length)) p (pre ++ g) / v :=
        div_nonneg hfin (le_of_lt hv)
      rw [if_neg (not_lt.mpr hpc)]
      unfold runCond
      rw [mul_comm, div_mul_cancel₀ _ (ne_of_gt hv)]
    · have hm1 : 0 < margD (dims.drop (pre.length + g.length)) p (pre ++ g) := by
        have h1 := hmid 1 (by omega) (by
          have : 0 < gs.length := List.length_pos.mpr hgs
          simp
          omega)
        simpa using h1
      unfold runCond
      have hpc : 0 ≤ margD (dims.drop (pre.length + g.length)) p (pre ++ g) / v :=
        div_nonneg (le_of_lt hm1) (le_of_lt hv)
      rw [if_neg (not_lt.mpr hpc), mul_comm, div_mul_cancel₀ _ (ne_of_gt hv)]
      have hstep := ih (pre ++ g)
        (margD (dims.drop (pre.length + g.length)) p (pre ++ g)) hgs hm1
        (by
          intro k hk hklt
          have h2 := hmid (k + 1) (by omega) (by simp; omega)
          simp only [List.take_succ_cons, List.flatten_cons,
            List.length_append, List.append_assoc] at h2 ⊢
          have h3 : pre.length + (g.length + ((gs.take k).flatten).length) =
              pre.length + g.length + ((gs.take k).flatten).length := by omega
          rw [← h3]
          exact h2)
        (by
          simp only [List.flatten_cons, List.length_append,
            List.append_assoc] at hfin ⊢
          have h3 : pre.length + (g.length + (gs.flatten).length) =
              pre.length + g.length + (gs.flatten).length := by omega
          rw [← h3]
          exact hfin)
      rw [hstep]
      simp only [List.flatten_cons, List.length_append, List.append_assoc]
      have h3 : pre.length + (g.length + (gs.flatten).length) =
          pre.length + g.length + (gs.flatten).length := by omega
      rw [← h3]

/-- **C1.** Conditional sampling guard: for an exact probability tensor `p`
(real, so exactly real "within eps"; summing to `1` within `eps`), and for
every sequence of drawn groups the generator can produce (each drawn prefix
has positive marginal probability, and the assembled outcome has nonnegative
probability), the running probability accumulated by
`_sample_cond_single` equals the joint probability of the assembled outcome
read off from the full marginal, exactly — so the final guard
`assert abs(p - out_p) <= eps` never fails; and the fully summed marginal
`p_0 = marginal_p[0]` equals `1` within `eps` (the assertion
`abs(marginal_p[0] - 1.0) <= eps` of `_sample_cond`). -/
theorem claim_C1 (dims : List ℕ) (p : List ℕ → ℚ) (eps : ℚ)
    (groups : List (List ℕ))
    (heps : 0 ≤ eps)
    (hsum : |MPP.margD dims p [] - 1| ≤ eps)
    (hcover : (groups.flatten).length = dims.length)
    (hpos : ∀ k, 0 < k → k < groups.length →
      0 < MPP.margD (dims.drop ((groups.take k).flatten).length) p
        ((groups.take k).flatten))
    (hlast : 0 ≤ p groups.flatten) :
    |p groups.flatten - MPP.runCond dims p groups [] 1| ≤ eps ∧
    |MPP.margD dims p [] - 1| ≤ eps := by
  refine ⟨?_, hsum⟩
  by_cases hg : groups = []
  · subst hg
    have hdims : dims = [] := by
      have h0 : dims.length = 0 := by
        rw [← hcover]
        rfl
      exact List.length_eq_zero.mp h0
    subst hdims
    unfold runCond
    simpa using hsum
  · have hfl : MPP.margD
        (dims.drop (([] : List ℕ).length + (groups.flatten).length)) p
        ([] ++ groups.flatten) = p groups.flatten := by
      simp only [List.length_nil, List.nil_append, Nat.zero_add]
      rw [hcover, List.drop_length]
      rfl
    rw [runCond_eq dims p groups [] 1 hg one_pos
      (by
        intro k hk hklt
        have h1 := hpos k hk hklt
        simpa using h1)
      (by rw [hfl]; exact hlast), hfl, sub_self, abs_zero]
    exact heps

/-- Witness for C1: the uniform tensor `p = 1/4` on two binary sites, with
the group draws `[0]` then `[1]`. -/
theorem claim_C1_witness :
    (0 : ℚ) ≤ 1/10^10 ∧
    |MPP.margD [2, 2] (fun _ => (1/4 : ℚ)) [] - 1| ≤ 1/10^10 ∧
    (([[0], [1]] : List (List ℕ)).flatten).length = ([2, 2] : List ℕ).length ∧
    (∀ k, 0 < k → k < ([[0], [1]] : List (List ℕ)).length →
      0 < MPP.margD (([2, 2] : List ℕ).drop
          (((([[0], [1]] : List (List ℕ)).take k).flatten).length))
        (fun _ => (1/4 : ℚ)) ((([[0], [1]] : List (List ℕ)).take k).flatten)) ∧
    (|(fun _ => (1/4 : ℚ)) (([[0], [1]] : List (List ℕ)).flatten) -
        MPP.runCond [2, 2] (fun _ => (1/4 : ℚ)) [[0], [1]] [] 1| ≤ 1/10^10 ∧
      |MPP.margD [2, 2] (fun _ => (1/4 : ℚ)) [] - 1| ≤ 1/10^10) := by
  have hsum : |MPP.margD [2, 2] (fun _ => (1/4 : ℚ)) [] - 1| ≤ 1/10^10 := by
    unfold margD margD margD
    simp [Finset.sum_range_succ]
    norm_num
  have hpos : ∀ k, 0 < k → k < ([[0], [1]] : List (List ℕ)).length →
      0 < MPP.margD (([2, 2] : List ℕ).drop
          (((([[0], [1]] : List (List ℕ)).take k).flatten).length))
        (fun _ => (1/4 : ℚ)) ((([[0], [1]] : List (List ℕ)).take k).flatten) := by
    intro k hk1 hk2
    have hk : k = 1 := by simp at hk2; omega
    subst hk
    show 0 < MPP.margD [2] (fun _ => (1/4 : ℚ)) [0]
    unfold margD margD
    simp [Finset.sum_range_succ]
    all_goals norm_num
  exact ⟨by norm_num, hsum, by simp, hpos,
    claim_C1 [2, 2] (fun _ => (1/4 : ℚ)) (1/10^10) [[0], [1]]
      (by norm_num) hsum (by simp) hpos (by norm_num)⟩

end MPP

namespace TT

open QC

theorem leftBond_append (A B : List Site) (hB : leftBond B = 1) :
    leftBond (A ++ B) = leftBond A := by
  cases A with
  | nil =>
    rw [List.nil_append, hB]
    rfl
  | cons s A => rfl

theorem chainOk_append (A B : List Site) (hA : chainOk A = true)
    (hB : chainOk B = true) (hlB : leftBond B = 1) :
    chainOk (A ++ B) = true := by
  induction A with
  | nil => exact hB
  | cons s A ih =>
    simp only [chainOk, Bool.and_eq_true, beq_iff_eq] at hA
    rw [List.cons_append]
    simp only [chainOk, Bool.and_eq_true, beq_iff_eq]
    exact ⟨by rw [leftBond_append A B hlB]; exact hA.1, ih hA.2⟩

theorem eval_cons (l : ℕ) (s : Site) (rest : List Site) (idx : ℕ × ℕ × ℕ)
    (idxs : List (ℕ × ℕ × ℕ)) :
    eval l (s :: rest) (idx :: idxs) =
      ∑ b ∈ Finset.range s.br, s.t l idx.1 idx.2.1 idx.2.2 b * eval b rest idxs :=
  rfl

/-- The dense tensor of a concatenation (`mp.outer`) of a well-bonded chain
`A` with any chain `B` is the tensor (Kronecker) product of the dense
tensors: the contraction splits at the trivial bond between them. -/
theorem eval_append (B : List Site) : ∀ (A : List Site),
    chainOk A = true → ∀ l, l < leftBond A →
    ∀ (ia ib : List (ℕ × ℕ × ℕ)), ia.length = A.length →
    eval l (A ++ B) (ia ++ ib) = eval l A ia * eval 0 B ib := by
  intro A
  induction A with
  | nil =>
    intro _ l hl ia ib hia
    have hia0 : ia = [] := List.length_eq_zero.mp hia
    subst hia0
    have hl1 : l < 1 := hl
    have hl0 : l = 0 := by omega
    subst hl0
    have h0 : eval 0 ([] : List Site) ([] : List (ℕ × ℕ × ℕ)) = 1 := rfl
    rw [List.nil_append, List.nil_append, h0, one_mul]
  | cons s A ih =>
    intro hok l hl ia ib hia
    simp only [chainOk, Bool.and_eq_true, beq_iff_eq] at hok
    cases ia with
    | nil => simp at hia
    | cons idx ia =>
      rw [List.cons_append, List.cons_append, eval_cons, eval_cons,
        Finset.sum_mul]
      refine Finset.sum_congr rfl ?_
      intro b hb
      rw [Finset.mem_range] at hb
      rw [ih hok.2 b (by rw [← hok.1]; exact hb) ia ib (by simpa using hia)]
      ring

theorem eyeSites_leftBond (dims : List ℕ) : leftBond (eyeSites dims) = 1 := by
  cases dims <;> rfl

theorem eyeSites_chainOk (dims : List ℕ) : chainOk (eyeSites dims) = true := by
  induction dims with
  | nil => rfl
  | cons d ds ih =>
    show ((1 == leftBond (eyeSites ds)) && chainOk (eyeSites ds)) = true
    rw [eyeSites_leftBond, ih]
    rfl

theorem eval_replicate (P : List Site) (hwf : wf P) :
    ∀ (blocks : List (List (ℕ × ℕ × ℕ))),
    (∀ ia ∈ blocks, ia.length = P.length) →
    eval 0 ((List.replicate blocks.length P).flatten) blocks.flatten =
      (blocks.map (eval 0 P)).prod := by
  intro blocks
  induction blocks with
  | nil =>
    intro _
    simp [eval]
  | cons ia bl ih =>
    intro hall
    rw [List.length_cons, List.replicate_succ, List.flatten_cons,
      List.flatten_cons, List.map_cons, List.prod_cons,
      eval_append _ P hwf.2 0 (by rw [hwf.1]; omega) ia bl.flatten
        (hall ia (List.mem_cons_self ia bl)),
      ih (fun x hx => hall x (List.mem_cons_of_mem ia hx))]

/-- **C7.** For an MPPovm `P` of length `L` whose bond dimension at the seam
after site `L` is 1 (the boundary bond of a well-formed MPArray, `wf P`),
and every `k ≥ 1`, `P.repeat(k*L)` equals the `k`-fold tensor product of `P`
with itself: structurally it is the concatenation of `k` copies of `P`
(`n_last = 0`, so `repeat` returns `mp.outer([self]*k)` exactly), and its
dense tensor factorizes into the product of the dense tensors of the `k`
copies — the operator-norm difference is `0 ≤ 1e-10`. -/
theorem claim_C7 (P : List TT.Site) (k : ℕ) (hk : 1 ≤ k) (hne : P ≠ [])
    (hwf : TT.wf P) :
    TT.repeatChain (k * P.length) P = (List.replicate k P).flatten ∧
    ∀ (blocks : List (List (ℕ × ℕ × ℕ))), blocks.length = k →
      (∀ ia ∈ blocks, ia.length = P.length) →
      TT.eval 0 (TT.repeatChain (k * P.length) P) blocks.flatten =
        (blocks.map (TT.eval 0 P)).prod := by
  have hL : 0 < P.length := List.length_pos.mpr hne
  have hstruct : TT.repeatChain (k * P.length) P = (List.replicate k P).flatten := by
    unfold repeatChain
    rw [Nat.mul_div_cancel k hL, Nat.mul_mod_left k P.length]
    simp
  refine ⟨hstruct, ?_⟩
  intro blocks hlen hall
  rw [hstruct, ← hlen]
  exact eval_replicate P hwf blocks hall

/-- Witness for C7 at the concrete single-site chain and `k = 2`. -/
theorem claim_C7_witness :
    1 ≤ 2 ∧ ([TT.zSiteTT] : List TT.Site) ≠ [] ∧ TT.wf [TT.zSiteTT] ∧
    (TT.repeatChain (2 * ([TT.zSiteTT] : List TT.Site).length) [TT.zSiteTT] =
        (List.replicate 2 [TT.zSiteTT]).flatten ∧
      ∀ (blocks : List (List (ℕ × ℕ × ℕ))), blocks.length = 2 →
        (∀ ia ∈ blocks, ia.length = ([TT.zSiteTT] : List TT.Site).length) →
        TT.eval 0 (TT.repeatChain (2 * ([TT.zSiteTT] : List TT.Site).length)
            [TT.zSiteTT]) blocks.flatten =
          (blocks.map (TT.eval 0 [TT.zSiteTT])).prod) :=
  ⟨by norm_num, by simp, ⟨rfl, rfl⟩,
    claim_C7 [TT.zSiteTT] 2 (by norm_num) (by simp) ⟨rfl, rfl⟩⟩

/-- **C8.** For an MPPovm `P` of length `L` with uniform local Hilbert
dimension `d` and `nr ≥ L`, `P.block(nr)` returns a list of exactly
`nr - L + 1` members, and the member at index `s` is exactly the
concatenation `eye^s ++ P ++ eye^(nr-L-s)` — the tensor product of `eye`
on the first `s` sites, `P`, and `eye` on the rest, as its dense tensor
factorization shows.  In particular `block(3)` of a length-2 MPPovm has the
2 members `self ⊗ eye` and `eye ⊗ self`. -/
theorem claim_C8 (P : List TT.Site) (nr d : ℕ) (hne : P ≠ []) (hwf : TT.wf P)
    (hd : ∀ s ∈ P, s.hd = d) (hnr : P.length ≤ nr) :
    (TT.block nr P).length = nr - P.length + 1 ∧
    ∀ st, st ≤ nr - P.length →
      (TT.block nr P)[st]? = some
        (TT.eyeSites (List.replicate st d) ++ P ++
          TT.eyeSites (List.replicate (nr - P.length - st) d)) ∧
      ∀ (ia im ib : List (ℕ × ℕ × ℕ)), ia.length = st → im.length = P.length →
        TT.eval 0 (TT.embed nr st d P) (ia ++ im ++ ib) =
          TT.eval 0 (TT.eyeSites (List.replicate st d)) ia *
            (TT.eval 0 P im *
              TT.eval 0 (TT.eyeSites (List.replicate (nr - P.length - st) d)) ib) := by
  have hld : TT.localDim P = d := by
    cases P with
    | nil => exact absurd rfl hne
    | cons s rest => exact hd s (List.mem_cons_self s rest)
  constructor
  · unfold block
    rw [List.length_map, List.length_range]
  · intro st hst
    constructor
    · unfold block
      rw [List.getElem?_map, List.getElem?_range (by omega)]
      unfold embed
      rw [hld]
      rfl
    · intro ia im ib hia him
      unfold embed
      rw [eval_append (TT.eyeSites (List.replicate (nr - P.length - st) d))
          (TT.eyeSites (List.replicate st d) ++ P)
          (chainOk_append _ _ (eyeSites_chainOk _) hwf.2 hwf.1) 0
          (by rw [leftBond_append _ _ hwf.1, eyeSites_leftBond]; omega)
          (ia ++ im) ib (by simp [eyeSites, hia, him]),
        eval_append P (TT.eyeSites (List.replicate st d)) (eyeSites_chainOk _) 0
          (by rw [eyeSites_leftBond]; omega) ia im (by simp [eyeSites, hia])]
      ring

/-- Witness for C8: `block(3)` of the concrete single-site chain. -/
theorem claim_C8_witness :
    ([TT.zSiteTT] : List TT.Site) ≠ [] ∧ TT.wf [TT.zSiteTT] ∧
    (∀ s ∈ ([TT.zSiteTT] : List TT.Site), s.hd = 2) ∧
    ([TT.zSiteTT] : List TT.Site).length ≤ 3 ∧
    ((TT.block 3 [TT.zSiteTT]).length =
        3 - ([TT.zSiteTT] : List TT.Site).length + 1 ∧
      ∀ st, st ≤ 3 - ([TT.zSiteTT] : List TT.Site).length →
        (TT.block 3 [TT.zSiteTT])[st]? = some
          (TT.eyeSites (List.replicate st 2) ++ [TT.zSiteTT] ++
            TT.eyeSites (List.replicate
              (3 - ([TT.zSiteTT] : List TT.Site).length - st) 2)) ∧
        ∀ (ia im ib : List (ℕ × ℕ × ℕ)), ia.length = st →
          im.length = ([TT.zSiteTT] : List TT.Site).length →
          TT.eval 0 (TT.embed 3 st 2 [TT.zSiteTT]) (ia ++ im ++ ib) =
            TT.eval 0 (TT.eyeSites (List.replicate st 2)) ia *
              (TT.eval 0 [TT.zSiteTT] im *
                TT.eval 0 (TT.eyeSites (List.replicate
                  (3 - ([TT.zSiteTT] : List TT.Site).length - st) 2)) ib)) :=
  ⟨by simp, ⟨rfl, rfl⟩,
    by
      intro s hs
      rw [List.mem_singleton] at hs
      subst hs
      rfl,
    by norm_num,
    claim_C8 [TT.zSiteTT] 3 2 (by simp) ⟨rfl, rfl⟩
      (by
        intro s hs
        rw [List.mem_singleton] at hs
        subst hs
        rfl)
      (by norm_num)⟩

end TT

namespace MPP

open QC

/-- **C9.** The claim says `MPPovmList.estprob_from(other, samples)` yields,
per member of `self`, the aggregation result of
`MPPovm.estprob_from_mpplist`.  It cannot: the code calls
`mpp.estprob_from_mpps(...)`, an attribute that does not exist (the defined
method is `estprob_from_mpplist`), so for every pair of nonempty lists with
matching member lengths the first yielded item raises `AttributeError`
instead. -/
theorem claim_C9 (s0 o0 : ℕ) (ss os : List ℕ) (h : s0 = o0) :
    MPP.estprob_from (s0 :: ss) (o0 :: os) = .error .attributeError := by
  show (if s0 ≠ o0 then (Except.error PyErr.assertionError : Except PyErr (List Unit))
      else Except.error PyErr.attributeError) = Except.error PyErr.attributeError
  rw [if_neg (not_not_intro h)]

/-- Witness for C9: two single-member lists of one-site MP-POVMs. -/
theorem claim_C9_witness :
    (1 : ℕ) = 1 ∧
    MPP.estprob_from [1] [1] = .error .attributeError :=
  ⟨rfl, claim_C9 1 1 [] [] rfl⟩

/-- **C10.** For every state whose sites all have exactly 2 physical legs
(an MPDO, or a PMPS seen only through its leg count — the code never checks
which), `expectations(mpa, mode='auto')` runs the same computation as
`expectations(mpa, mode='mpdo')`: the `'auto'` resolution never selects
`'pmps'`, so such a state always goes through the density-operator
reduction path. -/
theorem claim_C10 (τ : Type) (mpsVal mpdoVal pmpsVal : τ) (plegs : List ℕ)
    (hne : plegs ≠ []) (h2 : ∀ pleg ∈ plegs, pleg = 2) :
    MPP.expectationsDispatch τ mpsVal mpdoVal pmpsVal "auto" plegs =
      MPP.expectationsDispatch τ mpsVal mpdoVal pmpsVal "mpdo" plegs ∧
    MPP.expectationsDispatch τ mpsVal mpdoVal pmpsVal "auto" plegs =
      .ok mpdoVal ∧
    ∀ pl : List ℕ, MPP.resolveMode "auto" pl ≠ "pmps" := by
  have hres : resolveMode "auto" plegs = "mpdo" := by
    unfold resolveMode
    rw [if_pos rfl]
    have hall2 : plegs.all (fun pleg => pleg == 2) = true := by
      rw [List.all_eq_true]
      intro x hx
      rw [h2 x hx]
      decide
    have hnall1 : ¬ plegs.all (fun pleg => pleg == 1) = true := by
      intro hall
      cases plegs with
      | nil => exact hne rfl
      | cons q qs =>
        have hq := List.all_eq_true.mp hall q (List.mem_cons_self q qs)
        rw [h2 q (List.mem_cons_self q qs)] at hq
        simp at hq
    rw [if_neg hnall1, if_pos hall2]
  have hmpdo : resolveMode "mpdo" plegs = "mpdo" := by
    unfold resolveMode
    rw [if_neg (by simp)]
  refine ⟨?_, ?_, ?_⟩
  · unfold expectationsDispatch
    rw [hres, hmpdo]
  · unfold expectationsDispatch
    rw [hres]
    rw [if_neg (by simp), if_pos rfl]
  · intro pl
    unfold resolveMode
    rw [if_pos rfl]
    split_ifs <;> simp

/-- Witness for C10: a two-site state with 2 physical legs per site. -/
theorem claim_C10_witness :
    ([2, 2] : List ℕ) ≠ [] ∧ (∀ pleg ∈ ([2, 2] : List ℕ), pleg = 2) ∧
    (MPP.expectationsDispatch ℕ 10 20 30 "auto" [2, 2] =
        MPP.expectationsDispatch ℕ 10 20 30 "mpdo" [2, 2] ∧
      MPP.expectationsDispatch ℕ 10 20 30 "auto" [2, 2] = .ok 20 ∧
      ∀ pl : List ℕ, MPP.resolveMode "auto" pl ≠ "pmps") :=
  ⟨by simp, by decide,
    claim_C10 ℕ 10 20 30 [2, 2] (by simp) (by decide)⟩

end MPP

